import Mathlib

/-!
Verification of the encjson JSON library core (src/encjson.c) against its
natural-language specification.

Bytes are modelled as `Nat` (values 0..255); C strings and byte slices are
modelled as `List Nat`, the end of a list standing for the position of the
terminating NUL or the `end` pointer as appropriate.  C `double` is modelled
by `DoubleM`: NaN, infinities, and an exact rational payload for finite
values (the finite values reached by the claims are all exactly
representable in binary64, so exact rational arithmetic agrees with the C
computation there).  Fallible C paths that return NULL, and crashing paths
(failed assertions, NULL dereference), are modelled with `Option`.

Recursive decoding functions take an explicit fuel argument; every
recursive call strictly shortens the input, so fuel `length + 1` always
suffices and the top-level entry points supply it.
-/

set_option maxHeartbeats 1000000
set_option maxRecDepth 8000

/-- Model of C double: NaN, infinities, or an exact finite value. -/
inductive DoubleM where
  | nan
  | posInf
  | negInf
  | fin (q : ℚ)
deriving DecidableEq

/-- The classes distinguished by fpclassify(3). -/
inductive FPClassM where
  | nanC
  | infiniteC
  | zeroC
  | subnormalC
  | normalC
deriving DecidableEq

/-- Model of fpclassify(3): finite values classify as zero, subnormal
(magnitude below 2^-1022, stated on the reduced numerator and denominator
as |num| * 2^1022 < den) or normal. -/
def fpclassifyM : DoubleM → FPClassM
  | .nan => .nanC
  | .posInf => .infiniteC
  | .negInf => .infiniteC
  | .fin q =>
    if q = 0 then .zeroC
    else if q.num.natAbs * 2 ^ 1022 < q.den then .subnormalC
    else .normalC

/-- Model of isnormal(3): true exactly for the normal class. -/
def isnormalM (d : DoubleM) : Bool :=
  fpclassifyM d = FPClassM.normalC

/-- Negation of a modelled double. -/
def negDouble : DoubleM → DoubleM
  | .nan => .nan
  | .posInf => .negInf
  | .negInf => .posInf
  | .fin q => .fin (-q)

mutual

/-- The in-memory JSON value (struct json_thing): the seven JSON kinds plus
the pre-encoded Raw kind.  `integer` carries the signed 64-bit payload,
`unsignedInt` the unsigned 64-bit payload; range invariants live in `wf`
below.  The per-array/object lookup overlay and access counter are cache
state modelled separately by `JitArray`.  Element and field sequences are
the mutual types `JsonSeq` and `JsonFields` (the fsdyn lists of the
source). -/
inductive JsonThing where
  | array (elements : JsonSeq)
  | object (fields : JsonFields)
  | string (utf8 : List Nat)
  | integer (value : Int)
  | unsignedInt (value : Nat)
  | float (value : DoubleM)
  | boolean (value : Bool)
  | null
  | raw (repr : List Nat)

/-- Ordered sequence of array elements. -/
inductive JsonSeq where
  | nil
  | cons (hd : JsonThing) (tl : JsonSeq)

/-- Ordered sequence of (key, value) object fields. -/
inductive JsonFields where
  | nil
  | cons (name : List Nat) (value : JsonThing) (tl : JsonFields)

end

/-- Number of elements of an array sequence (list_size). -/
def JsonSeq.length : JsonSeq → Nat
  | .nil => 0
  | .cons _ t => t.length + 1

/-- Number of fields of an object (list_size). -/
def JsonFields.length : JsonFields → Nat
  | .nil => 0
  | .cons _ _ t => t.length + 1

/-- Append one element at the end (list_append). -/
def JsonSeq.snoc : JsonSeq → JsonThing → JsonSeq
  | .nil, x => .cons x .nil
  | .cons h t, x => .cons h (t.snoc x)

/-- Append one field at the end (list_append). -/
def JsonFields.snoc : JsonFields → List Nat → JsonThing → JsonFields
  | .nil, k, v => .cons k v .nil
  | .cons k0 v0 t, k, v => .cons k0 v0 (t.snoc k v)

/-- ASCII bytes of a Lean string literal (used only for ASCII literals). -/
def strBytes (s : String) : List Nat :=
  s.toList.map Char.toNat

/-- is_ascii_control_character: (c & 0xe0) == 0 || c == 0x7f. -/
def is_ascii_control_character (c : Nat) : Bool :=
  c &&& 0xe0 == 0 || c == 0x7f

/-- Lowercase hex digit character code, as printed by %x. -/
def hexChar (d : Nat) : Nat :=
  if d < 10 then 48 + d else 87 + d

/-- Bytes produced by sprintf(buf, "\u%04x", v) for v < 0x10000. -/
def sprintfU04x (v : Nat) : List Nat :=
  [92, 117, hexChar (v / 4096 % 16), hexChar (v / 256 % 16),
   hexChar (v / 16 % 16), hexChar (v % 16)]

/-- Decimal digit bytes of n, most significant first (fuelled; fuel n+1
suffices). -/
def natDecimalCore : Nat → Nat → List Nat
  | 0, _ => []
  | f + 1, n => if n = 0 then [] else natDecimalCore f (n / 10) ++ [48 + n % 10]

/-- Bytes written by sprintf("%llu", n). -/
def natDecimal (n : Nat) : List Nat :=
  if n = 0 then [48] else natDecimalCore (n + 1) n

/-- Bytes written by sprintf("%lld", i). -/
def intDecimal (i : Int) : List Nat :=
  if i < 0 then 45 :: natDecimal (-i).toNat else natDecimal i.toNat

/-- Drop the trailing '0' digit characters of a digit string (the
trailing-zero removal of %g). -/
def stripTrailZeros (l : List Nat) : List Nat :=
  (l.reverse.dropWhile (fun c => c == 48)).reverse

/-- Smallest k with n * 10^k at or above d, for 1 <= n < d (fuel d + 1
suffices since 10^(d-1) is at least d). -/
def decExpAux : Nat → Nat → Nat → Nat
  | 0, _, _ => 0
  | f + 1, n, d => if d ≤ n then 0 else decExpAux f (n * 10) d + 1

/-- Decimal exponent of the positive rational n / d: the unique X with
10^X <= n / d < 10^(X + 1).  At or above 1 it is the digit count of the
integer part minus one; below 1 it is minus the least k with
n * 10^k at or above d. -/
def decExp (n d : Nat) : Int :=
  if d ≤ n then (Nat.log 10 (n / d) : Int) else -(decExpAux (d + 1) n d : Int)

/-- Round the positive rational n / d to 21 significant decimal digits
with ties to even (the correct rounding sprintf performs): returns the
21-digit mantissa M (10^20 <= M < 10^21) and the decimal exponent X of
the rounded value, so the rounded value is M * 10^(X - 20).  Exactly one
of the two power factors is nontrivial; a carry to 10^21 bumps X. -/
def round21 (n d : Nat) : Nat × Int :=
  let X : Int := decExp n d
  let N := n * 10 ^ (20 - X).toNat
  let D := d * 10 ^ (X - 20).toNat
  let M0 := N / D
  let r := N % D
  let M := if D < 2 * r then M0 + 1
    else if 2 * r < D then M0
    else if M0 % 2 = 0 then M0 else M0 + 1
  if M = 10 ^ 21 then (10 ^ 20, X + 1) else (M, X)

/-- Style-f layout of %g for decimal exponent x at or above 0: the first
x + 1 mantissa digits form the integer part, the rest the fraction, with
trailing fractional zeros (and then an empty point) removed. -/
def fixedStyle (ds : List Nat) (x : Nat) : List Nat :=
  let frac := stripTrailZeros (ds.drop (x + 1))
  ds.take (x + 1) ++ (if frac = [] then [] else 46 :: frac)

/-- Style-e layout of %g: leading digit, point and stripped remaining
digits if any remain, then e, an explicit sign and the exponent magnitude
padded to at least two digits. -/
def sciStyle (ds : List Nat) (x : Int) : List Nat :=
  let frac := stripTrailZeros (ds.drop 1)
  ds.take 1 ++ (if frac = [] then [] else 46 :: frac) ++
    101 :: (if x < 0 then 45 else 43) ::
      (if x.natAbs < 10 then 48 :: natDecimal x.natAbs else natDecimal x.natAbs)

/-- Bytes written by sprintf(buffer, "%.21g", value) per C99: zero prints
as 0; otherwise round the magnitude to 21 significant digits, and with X
the decimal exponent of the rounded value use style f when -4 <= X < 21
(fractional precision 20 - X) and style e otherwise, stripping trailing
fractional zeros; a leading minus for negative values. -/
def format21g (q : ℚ) : List Nat :=
  if q = 0 then [48]
  else
    let M := (round21 q.num.natAbs q.den).1
    let X := (round21 q.num.natAbs q.den).2
    let ds := natDecimal M
    (if q < 0 then [45] else []) ++
      (if X < -4 ∨ 21 ≤ X then sciStyle ds X
       else if 0 ≤ X then fixedStyle ds X.toNat
       else 48 :: 46 :: (List.replicate ((-X).toNat - 1) 48 ++ stripTrailZeros ds))

/-- encjson_internal_encode_float (default_float_formatter.c): sprintf
with format %.21g into a NUL-terminated buffer.  sprintf itself is libc
code outside this repository, modelled by the C99 %g conversion with
correct rounding on the exact value; the exact rational payload of the
model stands for the double's exact binary value.  The nan and inf arms
mirror glibc's renderings and are unreachable through json_make_float,
which asserts isnormal. -/
def floatRepr : DoubleM → List Nat
  | .nan => strBytes "nan"
  | .posInf => strBytes "inf"
  | .negInf => strBytes "-inf"
  | .fin q => format21g q

/-- The switch of encode_string_value on an ASCII control character: the
named escapes for backspace, form feed, newline, carriage return and tab,
and the \u00XX escape for the rest. -/
def controlEscape (c : Nat) : List Nat :=
  match c with
  | 8 => [92, 98]
  | 12 => [92, 102]
  | 10 => [92, 110]
  | 13 => [92, 114]
  | 9 => [92, 116]
  | _ => sprintfU04x (c &&& 0xff)

/-- Body of encode_string_value between the quotes: the escaping loop,
which stops at a NUL byte.  Checks in source order: ASCII control
characters, the 0xC2-prefixed Latin control pairs, backslash and quote,
then plain copy. -/
def escBody : List Nat → List Nat
  | [] => []
  | [c] =>
    if c = 0 then []
    else if is_ascii_control_character c then controlEscape c
    else if c = 92 || c = 34 then [92, c]
    else [c]
  | c :: c2 :: t =>
    if c = 0 then []
    else if is_ascii_control_character c then controlEscape c ++ escBody (c2 :: t)
    else if c = 0xc2 && c2 &&& 0xe0 == 0x80 then
      sprintfU04x ((c &&& 0x1f) <<< 6 ||| (c2 &&& 0x3f)) ++ escBody t
    else if c = 92 || c = 34 then 92 :: c :: escBody (c2 :: t)
    else c :: escBody (c2 :: t)

/-- Full bytes of encode_string_value: quote, escaped body, quote. -/
def encStringBytes (s : List Nat) : List Nat :=
  34 :: escBody s ++ [34]

mutual

/-- The compact encoding of a value as a byte list: the bytes encode_raw
writes when the buffer is large enough (its return count is proved equal to
this list's length). -/
def encBytes : JsonThing → List Nat
  | .array es => 91 :: encArrayBody es ++ [93]
  | .object fs => 123 :: encObjectBody fs ++ [125]
  | .string s => encStringBytes s
  | .integer n => intDecimal n
  | .unsignedInt u => natDecimal u
  | .float d => (floatRepr d).takeWhile (fun c => c ≠ 0)
  | .boolean b => if b then strBytes "true" else strBytes "false"
  | .null => strBytes "null"
  | .raw r => r.takeWhile (fun c => c ≠ 0)

/-- Elements of an array joined by commas (encode_array's loop). -/
def encArrayBody : JsonSeq → List Nat
  | .nil => []
  | .cons x .nil => encBytes x
  | .cons x (.cons y t) => encBytes x ++ 44 :: encArrayBody (.cons y t)

/-- Fields of an object: encoded key, colon, value, joined by commas. -/
def encObjectBody : JsonFields → List Nat
  | .nil => []
  | .cons k v .nil => encStringBytes k ++ 58 :: encBytes v
  | .cons k v (.cons k2 v2 t) =>
    encStringBytes k ++ 58 :: encBytes v ++ 44 :: encObjectBody (.cons k2 v2 t)

end

/-- encode_char: append the byte if the cursor is still short of `end`
(cap = end - buffer); otherwise drop it.  The state is the list of bytes
written so far. -/
def encode_char (c : Nat) (st : List Nat) (cap : Nat) : List Nat :=
  if st.length < cap then st ++ [c] else st

/-- encode_repr: emit a NUL-terminated byte string, returning the count of
bytes (excluding the NUL) and the new buffer state. -/
def encode_repr : List Nat → List Nat → Nat → Nat × List Nat
  | [], st, _ => (0, st)
  | c :: t, st, cap =>
    if c = 0 then (0, st)
    else
      let r := encode_repr t (encode_char c st cap) cap
      (r.1 + 1, r.2)

/-- The escaping loop of encode_string_value in buffer-writing form. -/
def escBodyW : List Nat → List Nat → Nat → Nat × List Nat
  | [], st, _ => (0, st)
  | [c], st, cap =>
    if c = 0 then (0, st)
    else if is_ascii_control_character c then encode_repr (controlEscape c) st cap
    else if c = 92 || c = 34 then (2, encode_char c (encode_char 92 st cap) cap)
    else (1, encode_char c st cap)
  | c :: c2 :: t, st, cap =>
    if c = 0 then (0, st)
    else if is_ascii_control_character c then
      let r1 := encode_repr (controlEscape c) st cap
      let r2 := escBodyW (c2 :: t) r1.2 cap
      (r1.1 + r2.1, r2.2)
    else if c = 0xc2 && c2 &&& 0xe0 == 0x80 then
      let r1 := encode_repr (sprintfU04x ((c &&& 0x1f) <<< 6 ||| (c2 &&& 0x3f))) st cap
      let r2 := escBodyW t r1.2 cap
      (r1.1 + r2.1, r2.2)
    else if c = 92 || c = 34 then
      let st1 := encode_char 92 st cap
      let st2 := encode_char c st1 cap
      let r := escBodyW (c2 :: t) st2 cap
      (2 + r.1, r.2)
    else
      let st1 := encode_char c st cap
      let r := escBodyW (c2 :: t) st1 cap
      (1 + r.1, r.2)

/-- encode_string_value: quote, escaped body, quote, returning total count
and buffer state. -/
def encode_string_valueW (s : List Nat) (st : List Nat) (cap : Nat) : Nat × List Nat :=
  let st1 := encode_char 34 st cap
  let r := escBodyW s st1 cap
  (1 + r.1 + 1, encode_char 34 r.2 cap)

mutual

/-- encode_raw: dispatch on the value kind, writing into the buffer state
and returning the total byte count.  The bracket-writing bodies of
encode_array and encode_object are inlined here around their loops. -/
def encode_rawW : JsonThing → List Nat → Nat → Nat × List Nat
  | .array es, st, cap =>
    let st1 := encode_char 91 st cap
    let r := encArrLoopW es st1 cap
    (1 + r.1 + 1, encode_char 93 r.2 cap)
  | .object fs, st, cap =>
    let st1 := encode_char 123 st cap
    let r := encObjLoopW fs st1 cap
    (1 + r.1 + 1, encode_char 125 r.2 cap)
  | .string s, st, cap => encode_string_valueW s st cap
  | .integer n, st, cap => encode_repr (intDecimal n) st cap
  | .unsignedInt u, st, cap => encode_repr (natDecimal u) st cap
  | .float d, st, cap => encode_repr (floatRepr d) st cap
  | .boolean b, st, cap => encode_repr (strBytes (if b then "true" else "false")) st cap
  | .null, st, cap => encode_repr (strBytes "null") st cap
  | .raw r, st, cap => encode_repr r st cap

/-- The element loop of encode_array (the lookahead `e = next; if (!e)
break` of the source becomes the two cons patterns). -/
def encArrLoopW : JsonSeq → List Nat → Nat → Nat × List Nat
  | .nil, st, _ => (0, st)
  | .cons x .nil, st, cap => encode_rawW x st cap
  | .cons x (.cons y t), st, cap =>
    let r1 := encode_rawW x st cap
    let st2 := encode_char 44 r1.2 cap
    let r2 := encArrLoopW (.cons y t) st2 cap
    (r1.1 + 1 + r2.1, r2.2)

/-- The field loop of encode_object. -/
def encObjLoopW : JsonFields → List Nat → Nat → Nat × List Nat
  | .nil, st, _ => (0, st)
  | .cons k v .nil, st, cap =>
    let rk := encode_string_valueW k st cap
    let st1 := encode_char 58 rk.2 cap
    let rv := encode_rawW v st1 cap
    (rk.1 + 1 + rv.1, rv.2)
  | .cons k v (.cons k2 v2 t), st, cap =>
    let rk := encode_string_valueW k st cap
    let st1 := encode_char 58 rk.2 cap
    let rv := encode_rawW v st1 cap
    let st2 := encode_char 44 rv.2 cap
    let r2 := encObjLoopW (.cons k2 v2 t) st2 cap
    (rk.1 + 1 + rv.1 + 1 + r2.1, r2.2)

end

/-- json_utf8_encode: with size 0 the buffer is untouched and only the
count is computed; otherwise at most size-1 bytes are written followed by a
NUL.  Returns (count, final buffer contents). -/
def json_utf8_encode (thing : JsonThing) (size : Nat) : Nat × List Nat :=
  if size = 0 then ((encode_rawW thing [] 0).1, [])
  else
    let r := encode_rawW thing [] (size - 1)
    (r.1, r.2 ++ [0])

example : encBytes (.boolean true) = strBytes "true" := by decide
example : encBytes (.array (.cons (.integer 12) .nil)) = strBytes "[12]" := by decide
example : json_utf8_encode (.string [65, 9, 66]) 100 =
    (6, strBytes "\"A\\tB\"" ++ [0]) := by decide
example : json_utf8_encode (.string [65, 9, 66]) 4 = (6, strBytes "\"A\\" ++ [0]) := by decide

/-- MAX_DECODE_NESTING_LEVELS from the source. -/
def MAX_DECODE_NESTING_LEVELS : Nat := 200

/-- JIT_SIZE_LIMIT from the source. -/
def JIT_SIZE_LIMIT : Nat := 30

/-- JIT_ACCESS_LIMIT from the source. -/
def JIT_ACCESS_LIMIT : Nat := 1000

/-- skip_ws: skip space, tab, CR, LF. -/
def skip_ws : List Nat → List Nat
  | [] => []
  | c :: t => if c = 32 || c = 9 || c = 13 || c = 10 then skip_ws t else c :: t

/-- skip: consume exactly the byte c, failing on end of input or mismatch. -/
def skip (l : List Nat) (c : Nat) : Option (List Nat) :=
  match l with
  | [] => none
  | x :: t => if x = c then some t else none

/-- Modelled from fsdyn charstr_digit_value: the value of an alphanumeric
digit (base 36), or failure. -/
def charstr_digit_value (c : Nat) : Option Nat :=
  if 48 ≤ c && c ≤ 57 then some (c - 48)
  else if 97 ≤ c && c ≤ 122 then some (c - 87)
  else if 65 ≤ c && c ≤ 90 then some (c - 55)
  else none

/-- scan_hex_digit: read one digit via charstr_digit_value and consume it. -/
def scan_hex_digit (l : List Nat) : Option (Nat × List Nat) :=
  match l with
  | [] => none
  | c :: t => (charstr_digit_value c).map (fun d => (d, t))

/-- scan_ucs2: four hex digits combined as d0 shl 12 or d1 shl 8 or d2 shl 4
or d3. -/
def scan_ucs2 (l : List Nat) : Option (Nat × List Nat) :=
  (scan_hex_digit l).bind fun r0 =>
    (scan_hex_digit r0.2).bind fun r1 =>
      (scan_hex_digit r1.2).bind fun r2 =>
        (scan_hex_digit r2.2).map fun r3 =>
          (r0.1 <<< 12 ||| r1.1 <<< 8 ||| r2.1 <<< 4 ||| r3.1, r3.2)

/-- high_surrogate: 0xD800..0xDBFF. -/
def high_surrogate (ucs2 : Nat) : Bool :=
  0xd800 ≤ ucs2 && ucs2 ≤ 0xdbff

/-- low_surrogate: 0xDC00..0xDFFF. -/
def low_surrogate (ucs2 : Nat) : Bool :=
  0xdc00 ≤ ucs2 && ucs2 ≤ 0xdfff

/-- valid_unicode: scalar value outside the surrogate range (the 0 ≤ unic
bound of the C int is automatic for Nat). -/
def valid_unicode (unic : Nat) : Bool :=
  unic ≤ 0xd7ff || (0xe000 ≤ unic && unic ≤ 0x10ffff)

/-- utf8_length: number of UTF-8 bytes of a code point. -/
def utf8_length (unic : Nat) : Nat :=
  if unic < 0x80 then 1
  else if unic < 0x800 then 2
  else if unic < 0x10000 then 3
  else 4

/-- utf8_encode: the UTF-8 byte sequence of a code point. -/
def utf8_encode (unic : Nat) : List Nat :=
  if unic < 0x80 then [unic]
  else if unic < 0x800 then
    [0xc0 ||| unic >>> 6, 0x80 ||| (unic &&& 0x3f)]
  else if unic < 0x10000 then
    [0xe0 ||| unic >>> 12, 0x80 ||| (unic >>> 6 &&& 0x3f), 0x80 ||| (unic &&& 0x3f)]
  else
    [0xf0 ||| unic >>> 18, 0x80 ||| (unic >>> 12 &&& 0x3f),
     0x80 ||| (unic >>> 6 &&& 0x3f), 0x80 ||| (unic &&& 0x3f)]

/-- scan_utf16 (entered after the initial backslash-u): a lone low
surrogate fails; a non-surrogate stands alone; a high surrogate must be
followed by backslash, u, and a low surrogate, the pair combining to
0x10000 + ((hi - 0xD800) shl 10 or (lo - 0xDC00)), checked by
valid_unicode. -/
def scan_utf16 (l : List Nat) : Option (Nat × List Nat) :=
  (scan_ucs2 l).bind fun r =>
    if low_surrogate r.1 then none
    else if !high_surrogate r.1 then some r
    else
      (skip r.2 92).bind fun p1 =>
        (skip p1 117).bind fun p2 =>
          (scan_ucs2 p2).bind fun rl =>
            if !low_surrogate rl.1 then none
            else
              let v := 0x10000 + ((r.1 - 0xd800) <<< 10 ||| (rl.1 - 0xdc00))
              if valid_unicode v then some (v, rl.2) else none

/-- skip_utf8: validate and consume one UTF-8 byte sequence by inspecting
the length prefix of the lead byte. -/
def skip_utf8 : List Nat → Option (List Nat)
  | [] => none
  | c0 :: t =>
    if c0 &&& 0x80 == 0 then some t
    else if c0 &&& 0x40 == 0 then none
    else match t with
      | [] => none
      | c1 :: t1 =>
        if c1 &&& 0xc0 != 0x80 then none
        else if c0 &&& 0x20 == 0 then some t1
        else match t1 with
          | [] => none
          | c2 :: t2 =>
            if c2 &&& 0xc0 != 0x80 then none
            else if c0 &&& 0x10 == 0 then some t2
            else if c0 &&& 0x08 != 0 then none
            else match t2 with
              | [] => none
              | c3 :: t3 => if c3 &&& 0xc0 != 0x80 then none else some t3

/-- The loop of scan_string_repr after the opening quote: count the decoded
byte length, validating escapes and UTF-8 (fuelled; input length suffices). -/
def scanStringBody : Nat → List Nat → Option Nat
  | 0, _ => none
  | _, [] => none
  | f + 1, c :: t =>
    if c = 92 then
      match t with
      | [] => none
      | e :: t2 =>
        if e &&& 0x80 != 0 then none
        else if e ≠ 117 then (scanStringBody f t2).map (· + 1)
        else
          match scan_utf16 t2 with
          | none => none
          | some (unic, rest) => (scanStringBody f rest).map (· + utf8_length unic)
    else if c = 34 then some 0
    else
      match skip_utf8 (c :: t) with
      | none => none
      | some rest => (scanStringBody f rest).map (· + (t.length + 1 - rest.length))

/-- scan_string_repr: opening quote then the validating/counting loop. -/
def scan_string_repr (l : List Nat) : Option Nat :=
  (skip l 34).bind fun p => scanStringBody l.length p

/-- The copying loop of decode_string_value, run only after
scan_string_repr has validated the representation (fuelled). -/
def copyStringBody : Nat → List Nat → Option (List Nat × List Nat)
  | 0, _ => none
  | _, [] => none
  | f + 1, c :: t =>
    if c = 34 then some ([], t)
    else if c ≠ 92 then (copyStringBody f t).map (fun r => (c :: r.1, r.2))
    else
      match t with
      | [] => none
      | e :: t2 =>
        if e = 98 then (copyStringBody f t2).map (fun r => (8 :: r.1, r.2))
        else if e = 102 then (copyStringBody f t2).map (fun r => (12 :: r.1, r.2))
        else if e = 110 then (copyStringBody f t2).map (fun r => (10 :: r.1, r.2))
        else if e = 114 then (copyStringBody f t2).map (fun r => (13 :: r.1, r.2))
        else if e = 116 then (copyStringBody f t2).map (fun r => (9 :: r.1, r.2))
        else if e = 117 then
          match scan_utf16 t2 with
          | none => none
          | some (unic, rest) =>
            (copyStringBody f rest).map (fun r => (utf8_encode unic ++ r.1, r.2))
        else (copyStringBody f t2).map (fun r => (e :: r.1, r.2))

/-- decode_string_value: validate and size with scan_string_repr, then copy
out the bytes; returns (string bytes, rest after closing quote). -/
def decode_string_value (l : List Nat) : Option (List Nat × List Nat) :=
  match scan_string_repr l with
  | none => none
  | some _ => (skip l 34).bind fun p => copyStringBody l.length p

/-- decode_string: wrap the decoded bytes in a String value. -/
def decode_string (l : List Nat) : Option (JsonThing × List Nat) :=
  (decode_string_value l).map (fun r => (JsonThing.string r.1, r.2))

/-- Decimal digit test of the scanner loops. -/
def isDigitB (c : Nat) : Bool :=
  48 ≤ c && c ≤ 57

/-- scan_integral: one digit then any further digits. -/
def scan_integral (l : List Nat) : Option (List Nat) :=
  match l with
  | [] => none
  | c :: t => if isDigitB c then some (t.dropWhile isDigitB) else none

/-- scan_exponent: optional E/e, optional sign, digits; input returned
unchanged when no exponent follows. -/
def scan_exponent (l : List Nat) : Option (List Nat) :=
  match l with
  | [] => some []
  | c :: t =>
    if c ≠ 69 && c ≠ 101 then some l
    else
      match t with
      | [] => none
      | c2 :: t2 =>
        if c2 = 43 || c2 = 45 then scan_integral t2 else scan_integral (c2 :: t2)

/-- Value of a big-endian digit string, exact (helper of the strtod
model). -/
def parseDigitsNat (l : List Nat) : Nat :=
  l.foldl (fun a c => a * 10 + (c - 48)) 0

/-- Modelled from the spec: the locale-independent string-to-double of the
validated span, as the exact rational it denotes (the finite doubles
reached by the claims are exactly representable, where this model and the
rounded C result agree). -/
def ratOfNumberText (l : List Nat) : ℚ :=
  let (sgn, l1) : ℤ × List Nat := if l.headD 0 = 45 then (-1, l.tail) else (1, l)
  let ip := l1.takeWhile isDigitB
  let r1 := l1.dropWhile isDigitB
  let (fp, r3) : List Nat × List Nat :=
    match r1 with
    | 46 :: r2 => (r2.takeWhile isDigitB, r2.dropWhile isDigitB)
    | _ => ([], r1)
  let e : ℤ :=
    match r3 with
    | 69 :: 45 :: r4 => -(parseDigitsNat (r4.takeWhile isDigitB) : ℤ)
    | 101 :: 45 :: r4 => -(parseDigitsNat (r4.takeWhile isDigitB) : ℤ)
    | 69 :: 43 :: r4 => (parseDigitsNat (r4.takeWhile isDigitB) : ℤ)
    | 101 :: 43 :: r4 => (parseDigitsNat (r4.takeWhile isDigitB) : ℤ)
    | 69 :: r4 => (parseDigitsNat (r4.takeWhile isDigitB) : ℤ)
    | 101 :: r4 => (parseDigitsNat (r4.takeWhile isDigitB) : ℤ)
    | _ => 0
  let m : ℤ := sgn * (parseDigitsNat ip * 10 ^ fp.length + parseDigitsNat fp)
  let ee : ℤ := e - fp.length
  mkRat (m * 10 ^ ee.toNat) (10 ^ (-ee).toNat)

/-- Modelled from the spec: encjson_internal_decode_float = strtod plus the
ERANGE check; overflow beyond the double range (|q| at least 2^1024,
stated as |num| at least 2^1024 * den) fails, otherwise the exact finite
value is produced. -/
def encjson_internal_decode_float (l : List Nat) : Option DoubleM :=
  let q := ratOfNumberText l
  if q.num.natAbs < 2 ^ 1024 * q.den then some (.fin q) else none

/-- json_make_float carries assert(isnormal(n)); `none` models the failed
assertion (abort).  Note isnormal(0) is false. -/
def json_make_float (n : DoubleM) : Option JsonThing :=
  if isnormalM n then some (.float n) else none

/-- decode_float: parse the span with the string-to-double routine, then
classify: NaN/infinite fail, zero/subnormal construct Float(0), normal
values construct Float(value). -/
def decode_float (span : List Nat) : Option JsonThing :=
  match encjson_internal_decode_float span with
  | none => none
  | some value =>
    match fpclassifyM value with
    | .nanC => none
    | .infiniteC => none
    | .zeroC => json_make_float (.fin 0)
    | .subnormalC => json_make_float (.fin 0)
    | .normalC => json_make_float value

/-- The accumulating loop of decode_unsigned in 64-bit unsigned arithmetic;
`none` is the branch that detects wraparound (new_value < value) and falls
back to decode_float. -/
def decode_unsigned_loop : List Nat → Nat → Option Nat
  | [], v => some v
  | c :: t, v =>
    let nv := (v * 10 + c - 48) % 2 ^ 64
    if nv < v then none else decode_unsigned_loop t nv

/-- decode_unsigned: accumulate the digits; on detected wraparound fall
back to decode_float on the whole span; otherwise Integer when the value
reinterprets as a nonnegative long long (value < 2^63), else Unsigned. -/
def decode_unsigned (span : List Nat) : Option JsonThing :=
  match decode_unsigned_loop span 0 with
  | none => decode_float span
  | some v => if v < 2 ^ 63 then some (.integer (v : Int)) else some (.unsignedInt v)

/-- decode_number: integral digits; a '.' or exponent routes the whole span
through decode_float, otherwise the digits go to decode_unsigned. -/
def decode_number (l : List Nat) : Option (JsonThing × List Nat) :=
  match l with
  | [] => none
  | c :: _ =>
    if !isDigitB c then none
    else
      let ds := l.takeWhile isDigitB
      let p := l.dropWhile isDigitB
      match p with
      | [] => (decode_unsigned ds).map (fun th => (th, []))
      | c2 :: t2 =>
        if c2 = 46 then
          match scan_integral t2 with
          | none => none
          | some p2 =>
            match scan_exponent p2 with
            | none => none
            | some p3 =>
              (decode_float (l.take (l.length - p3.length))).map (fun th => (th, p3))
        else if c2 = 69 || c2 = 101 then
          match scan_exponent p with
          | none => none
          | some p3 =>
            (decode_float (l.take (l.length - p3.length))).map (fun th => (th, p3))
        else (decode_unsigned ds).map (fun th => (th, p))

/-- decode_negative_number: skip '-', decode the magnitude, then negate in
place.  An Unsigned magnitude strictly below (unsigned long long)LLONG_MIN
= 2^63 becomes a negated Integer, otherwise Float of the negated converted
magnitude; Integer LLONG_MIN flips to Unsigned 2^63, other Integers negate;
Float flips sign. -/
def decode_negative_number (l : List Nat) : Option (JsonThing × List Nat) :=
  (skip l 45).bind fun p =>
    (decode_number p).bind fun r =>
      match r.1 with
      | .unsignedInt u =>
        if u < 2 ^ 63 then some (.integer (-(u : Int)), r.2)
        else some (.float (.fin (-(u : ℚ))), r.2)
      | .integer n =>
        if n = -(2 ^ 63 : Int) then some (.unsignedInt (2 ^ 63), r.2)
        else some (.integer (-n), r.2)
      | .float d => some (.float (negDouble d), r.2)
      | _ => none

/-- decode_true: the literal bytes t r u e. -/
def decode_true (l : List Nat) : Option (JsonThing × List Nat) :=
  ((((skip l 116).bind (skip · 114)).bind (skip · 117)).bind (skip · 101)).map
    (fun rest => (JsonThing.boolean true, rest))

/-- decode_false: the literal bytes f a l s e. -/
def decode_false (l : List Nat) : Option (JsonThing × List Nat) :=
  (((((skip l 102).bind (skip · 97)).bind (skip · 108)).bind (skip · 115)).bind
      (skip · 101)).map
    (fun rest => (JsonThing.boolean false, rest))

/-- decode_null: the literal bytes n u l l. -/
def decode_null (l : List Nat) : Option (JsonThing × List Nat) :=
  ((((skip l 110).bind (skip · 117)).bind (skip · 108)).bind (skip · 108)).map
    (fun rest => (JsonThing.null, rest))

mutual

/-- decode: fail when the nesting budget is exhausted, skip whitespace,
then dispatch on the first byte.  The bodies of decode_array and
decode_object are inlined around their loops; each recursive call strictly
shortens the input, so fuel `input length + 1` suffices. -/
def decodeVal : Nat → List Nat → Nat → Option (JsonThing × List Nat)
  | 0, _, _ => none
  | f + 1, l, levels =>
    if levels = 0 then none
    else
      match skip_ws l with
      | [] => none
      | c :: t =>
        if c = 91 then
          match skip_ws t with
          | [] => none
          | c2 :: t2 =>
            if c2 = 93 then some (.array .nil, t2)
            else
              match decodeVal f (c2 :: t2) (levels - 1) with
              | none => none
              | some (e, r) => decodeArrayLoop f (JsonSeq.cons e .nil) r levels
        else if c = 123 then
          match skip_ws t with
          | [] => none
          | c2 :: t2 =>
            if c2 = 125 then some (.object .nil, t2)
            else decodeObjectLoop f JsonFields.nil (c2 :: t2) levels
        else if c = 34 then decode_string (c :: t)
        else if c = 45 then decode_negative_number (c :: t)
        else if c = 116 then decode_true (c :: t)
        else if c = 102 then decode_false (c :: t)
        else if c = 110 then decode_null (c :: t)
        else if isDigitB c then decode_number (c :: t)
        else none

/-- The element loop of decode_array after the first element. -/
def decodeArrayLoop : Nat → JsonSeq → List Nat → Nat → Option (JsonThing × List Nat)
  | 0, _, _, _ => none
  | f + 1, acc, l, levels =>
    match skip_ws l with
    | [] => none
    | c :: t =>
      if c = 93 then some (.array acc, t)
      else if c = 44 then
        match decodeVal f (skip_ws t) (levels - 1) with
        | none => none
        | some (e, r) => decodeArrayLoop f (acc.snoc e) r levels
      else none

/-- The field loop of decode_object: key string, colon, value, then comma
or closing brace. -/
def decodeObjectLoop : Nat → JsonFields → List Nat → Nat → Option (JsonThing × List Nat)
  | 0, _, _, _ => none
  | f + 1, acc, l, levels =>
    match decode_string_value l with
    | none => none
    | some (key, r1) =>
      match (skip (skip_ws r1) 58).map skip_ws with
      | none => none
      | some r3 =>
        match decodeVal f r3 (levels - 1) with
        | none => none
        | some (value, r4) =>
          let acc2 := acc.snoc key value
          match skip_ws r4 with
          | [] => none
          | c :: t =>
            if c = 125 then some (.object acc2, t)
            else if c = 44 then decodeObjectLoop f acc2 (skip_ws t) levels
            else none

end

/-- json_utf8_decode: run decode with the 200-level nesting budget, then
require only trailing whitespace. -/
def json_utf8_decode (buffer : List Nat) : Option JsonThing :=
  match decodeVal (buffer.length + 1) buffer MAX_DECODE_NESTING_LEVELS with
  | none => none
  | some (thing, rest) => if skip_ws rest = [] then some thing else none

/-- json_utf8_decode_string: decode the NUL-terminated byte string. -/
def json_utf8_decode_string (l : List Nat) : Option JsonThing :=
  json_utf8_decode (l.takeWhile (fun c => c ≠ 0))

example : json_utf8_decode (strBytes "true") = some (.boolean true) := rfl
example : json_utf8_decode (strBytes " [ 1, 22 ] ") =
    some (.array (.cons (.integer 1) (.cons (.integer 22) .nil))) := rfl
example : json_utf8_decode [123, 34, 97, 34, 58, 32, 110, 117, 108, 108, 125] =
    some (.object (.cons [97] .null .nil)) := rfl
example : json_utf8_decode (strBytes "\"A\\u0041\"") = some (.string [65, 65]) := rfl
example : json_utf8_decode (strBytes "9223372036854775807") =
    some (.integer 9223372036854775807) := rfl
example : json_utf8_decode (strBytes "9223372036854775808") =
    some (.unsignedInt 9223372036854775808) := rfl
example : json_utf8_decode (strBytes "x") = none := rfl

/-- strcmp equality of C strings (bytes up to the first NUL). -/
def cstrEq (a b : List Nat) : Bool :=
  a.takeWhile (fun c => c ≠ 0) == b.takeWhile (fun c => c ≠ 0)

/-- equal_doubles: a == b, or relative difference below the tolerance.
IEEE comparisons with NaN are false; infinities are equal only to
themselves (a == b short-circuits); the mixed infinite/finite cases go
through the formula whose NaN or infinite quotient compares false. -/
def equal_doubles (a b : DoubleM) (tolerance : ℚ) : Bool :=
  match a, b with
  | .fin x, .fin y => x == y || |y - x| / max |x| |y| < tolerance
  | .posInf, .posInf => true
  | .negInf, .negInf => true
  | _, _ => false

/-- equal_to_integer: an Integer against the three numeric kinds; the
comparison with Unsigned requires nonnegativity first, the comparison with
Float promotes to double. -/
def equal_to_integer (n : Int) (b : JsonThing) (tolerance : ℚ) : Bool :=
  match b with
  | .integer m => n == m
  | .unsignedInt u => decide (0 ≤ n) && n.toNat == u
  | .float d => equal_doubles (.fin (n : ℚ)) d tolerance
  | _ => false

/-- equal_to_unsigned: an Unsigned against the three numeric kinds. -/
def equal_to_unsigned (n : Nat) (b : JsonThing) (tolerance : ℚ) : Bool :=
  match b with
  | .integer q => decide (0 ≤ q) && n == q.toNat
  | .unsignedInt u => n == u
  | .float d => equal_doubles (.fin (n : ℚ)) d tolerance
  | _ => false

/-- equal_to_float: a Float against the three numeric kinds. -/
def equal_to_float (d : DoubleM) (b : JsonThing) (tolerance : ℚ) : Bool :=
  match b with
  | .integer m => equal_doubles d (.fin (m : ℚ)) tolerance
  | .unsignedInt u => equal_doubles d (.fin (u : ℚ)) tolerance
  | .float e => equal_doubles d e tolerance
  | _ => false

/-- Lookup through the hash-table overlay built by optimize_object: later
insertions replaced earlier ones, so the last field with a matching key
wins. -/
def hashLookup : JsonFields → List Nat → Option JsonThing
  | .nil, _ => none
  | .cons k v t, key =>
    match hashLookup t key with
    | some r => some r
    | none => if cstrEq key k then some v else none

mutual

/-- json_thing_equal, fuelled: a Raw right operand is decoded and equality
retried; when its bytes fail to parse the C code passes the NULL result on
and dereferences it, modelled as `none` (crash); a Raw left operand swaps
the sides.  The remaining cases are structural, with the numeric kinds
comparing cross-kind.  Fuel only decreases, and is only consumed, on the
Raw and structural steps; the canonical fuel of `json_thing_equal` covers
every Raw-free recursion. -/
def equalAux : Nat → JsonThing → JsonThing → ℚ → Option Bool
  | 0, _, _, _ => none
  | f + 1, a, b, tolerance =>
    match b with
    | .raw rb =>
      match json_utf8_decode_string rb with
      | none => none
      | some bdec => equalAux f a bdec tolerance
    | _ =>
      match a with
      | .array ea =>
        match b with
        | .array eb =>
          if ea.length ≠ eb.length then some false else equalSeqAux f ea eb tolerance
        | _ => some false
      | .object fa =>
        match b with
        | .object fb =>
          if fa.length ≠ fb.length then some false else equalFieldsAux f fa fb tolerance
        | _ => some false
      | .string sa =>
        match b with
        | .string sb => some (cstrEq sa sb)
        | _ => some false
      | .integer n => some (equal_to_integer n b tolerance)
      | .unsignedInt u => some (equal_to_unsigned u b tolerance)
      | .float d => some (equal_to_float d b tolerance)
      | .boolean ba =>
        match b with
        | .boolean bb => some (ba == bb)
        | _ => some false
      | .null =>
        match b with
        | .null => some true
        | _ => some false
      | .raw _ => equalAux f b a tolerance

/-- equal_arrays after the size check: pairwise equality in order. -/
def equalSeqAux : Nat → JsonSeq → JsonSeq → ℚ → Option Bool
  | 0, _, _, _ => none
  | _ + 1, .nil, .nil, _ => some true
  | _ + 1, .nil, .cons _ _, _ => some false
  | _ + 1, .cons _ _, .nil, _ => some false
  | f + 1, .cons x xt, .cons y yt, tolerance =>
    match equalAux f x y tolerance with
    | none => none
    | some false => some false
    | some true => equalSeqAux f xt yt tolerance

/-- equal_objects after the size check: every field of a is looked up in
b's freshly built overlay and the values compared. -/
def equalFieldsAux : Nat → JsonFields → JsonFields → ℚ → Option Bool
  | 0, _, _, _ => none
  | _ + 1, .nil, _, _ => some true
  | f + 1, .cons k v t, fb, tolerance =>
    match hashLookup fb k with
    | none => some false
    | some bval =>
      match equalAux f v bval tolerance with
      | none => none
      | some false => some false
      | some true => equalFieldsAux f t fb tolerance

end

mutual

/-- Fuel bound for json_thing_equal: a node count, with Raw nodes weighted
by their byte length so that the re-decode recursion stays within fuel. -/
def weight : JsonThing → Nat
  | .array es => seqWeight es + 1
  | .object fs => fieldsWeight fs + 1
  | .raw r => 2 * r.length + 4
  | _ => 1

/-- Total weight of array elements. -/
def seqWeight : JsonSeq → Nat
  | .nil => 0
  | .cons x t => weight x + seqWeight t

/-- Total weight of object field values. -/
def fieldsWeight : JsonFields → Nat
  | .nil => 0
  | .cons _ v t => weight v + fieldsWeight t

end

/-- json_thing_equal: the fuelled recursion at the canonical fuel. -/
def json_thing_equal (a b : JsonThing) (tolerance : ℚ) : Option Bool :=
  equalAux (weight a + weight b) a b tolerance

/-- The mutable state of one array (struct json_thing's array arm): the
element list, the random-access counter and the optional lookup overlay. -/
structure JitArray (α : Type) where
  elements : List α
  random_access_counter : Nat
  lookup_table : Option (List α)
deriving DecidableEq

/-- json_make_array: empty, zero counter, no overlay. -/
def json_make_array {α : Type} : JitArray α :=
  ⟨[], 0, none⟩

/-- clobber_array: with no lookup table, return at once; otherwise free
the table and reset the counter. -/
def clobber_array {α : Type} (a : JitArray α) : JitArray α :=
  if a.lookup_table.isNone then a
  else { elements := a.elements, random_access_counter := 0, lookup_table := none }

/-- json_add_to_array: clobber the overlay, then append the element. -/
def json_add_to_array {α : Type} (a : JitArray α) (x : α) : JitArray α :=
  let a2 := clobber_array a
  { a2 with elements := a2.elements ++ [x] }

/-- optimize_array: materialize the contiguous table of elements in
order. -/
def optimize_array {α : Type} (a : JitArray α) : JitArray α :=
  { a with lookup_table := some a.elements }

/-- json_array_get with an explicit retry budget (the source retries once,
through the freshly built table). -/
def json_array_get_go {α : Type} : Nat → JitArray α → Nat → Option α × JitArray α
  | 0, a, _ => (none, a)
  | r + 1, a, n =>
    if n ≥ a.elements.length then (none, a)
    else
      match a.lookup_table with
      | some tbl => (tbl[n]?, a)
      | none =>
        if a.elements.length ≥ JIT_SIZE_LIMIT then
          let a2 := { a with random_access_counter := a.random_access_counter + n }
          if a2.random_access_counter ≥ JIT_ACCESS_LIMIT then
            json_array_get_go r (optimize_array a2) n
          else (a2.elements[n]?, a2)
        else (a.elements[n]?, a)

/-- json_array_get: out-of-range positions return NULL before any counter
or overlay activity; an existing overlay answers directly; otherwise large
arrays accumulate the index into the counter and build the overlay at the
access limit; the final answer is the n-th element.  Returns the element
and the updated array state. -/
def json_array_get {α : Type} (a : JitArray α) (n : Nat) : Option α × JitArray α :=
  json_array_get_go 2 a n

example : json_thing_equal (.integer 5) (.unsignedInt 5) 0 = some true := rfl
example : json_thing_equal (.integer (-1)) (.unsignedInt 1) 0 = some false := rfl
example : json_thing_equal (.null) (.raw (strBytes "null")) 0 = some true := rfl
example : json_thing_equal (.null) (.raw (strBytes "x")) 0 = none := rfl

/-- UTF-8 continuation byte test. -/
def contOK (c : Nat) : Bool :=
  0x80 ≤ c && c ≤ 0xbf

mutual

/-- Executable validity of a byte string as NUL-free UTF-8, grouping by
the length classes the decoder's skip_utf8 accepts: ASCII (nonzero), and
2-, 3-, 4-byte sequences with continuation bytes. -/
def utf8OK : List Nat → Bool
  | [] => true
  | c :: t =>
    if c = 0 then false
    else if c < 0x80 then utf8OK t
    else if c < 0xc0 then false
    else if c ≤ 0xdf then utf8OKcont1 t
    else if c ≤ 0xef then utf8OKcont2 t
    else if c ≤ 0xf7 then utf8OKcont3 t
    else false

/-- One continuation byte then a valid rest. -/
def utf8OKcont1 : List Nat → Bool
  | c2 :: t2 => contOK c2 && utf8OK t2
  | [] => false

/-- Two continuation bytes then a valid rest. -/
def utf8OKcont2 : List Nat → Bool
  | c2 :: c3 :: t3 => contOK c2 && contOK c3 && utf8OK t3
  | _ => false

/-- Three continuation bytes then a valid rest. -/
def utf8OKcont3 : List Nat → Bool
  | c2 :: c3 :: c4 :: t4 => contOK c2 && contOK c3 && contOK c4 && utf8OK t4
  | _ => false

end

/-- Inductive view of utf8OK, used for the round-trip induction over the
character groups of a string. -/
inductive Utf8Chars : List Nat → Prop
  | nil : Utf8Chars []
  | one {c : Nat} {t : List Nat} : 0 < c → c < 0x80 → Utf8Chars t → Utf8Chars (c :: t)
  | two {c1 c2 : Nat} {t : List Nat} : 0xc0 ≤ c1 → c1 ≤ 0xdf → contOK c2 = true →
      Utf8Chars t → Utf8Chars (c1 :: c2 :: t)
  | three {c1 c2 c3 : Nat} {t : List Nat} : 0xe0 ≤ c1 → c1 ≤ 0xef → contOK c2 = true →
      contOK c3 = true → Utf8Chars t → Utf8Chars (c1 :: c2 :: c3 :: t)
  | four {c1 c2 c3 c4 : Nat} {t : List Nat} : 0xf0 ≤ c1 → c1 ≤ 0xf7 → contOK c2 = true →
      contOK c3 = true → contOK c4 = true → Utf8Chars t → Utf8Chars (c1 :: c2 :: c3 :: c4 :: t)

/-- Key freshness against the later fields of an object (the data model
makes key uniqueness the constructor's responsibility). -/
def keyFresh (k : List Nat) : JsonFields → Bool
  | .nil => true
  | .cons k2 _ t => !cstrEq k k2 && keyFresh k t

mutual

/-- Data-model well-formedness (the constructor-maintained invariants of
section 3 of the spec): strings and keys are NUL-free valid UTF-8, object
keys are distinct, Integer fits in signed 64 bits, Unsigned in unsigned 64
bits, Float values are normal (json_make_float's assert), Raw bytes are
NUL-free. -/
def wfThing : JsonThing → Bool
  | .array es => wfSeq es
  | .object fs => wfFields fs
  | .string s => utf8OK s
  | .integer n => decide (-(2 ^ 63 : Int) ≤ n) && decide (n < 2 ^ 63)
  | .unsignedInt u => decide (u < 2 ^ 64)
  | .float d => isnormalM d
  | .boolean _ => true
  | .null => true
  | .raw r => !r.contains 0

/-- Well-formedness of every array element. -/
def wfSeq : JsonSeq → Bool
  | .nil => true
  | .cons x t => wfThing x && wfSeq t

/-- Well-formedness of fields: valid distinct keys, well-formed values. -/
def wfFields : JsonFields → Bool
  | .nil => true
  | .cons k v t => utf8OK k && keyFresh k t && wfThing v && wfFields t

end

mutual

/-- No Float and no Raw anywhere in the tree. -/
def noFloatRaw : JsonThing → Bool
  | .array es => noFloatRawSeq es
  | .object fs => noFloatRawFields fs
  | .float _ => false
  | .raw _ => false
  | _ => true

/-- noFloatRaw over array elements. -/
def noFloatRawSeq : JsonSeq → Bool
  | .nil => true
  | .cons x t => noFloatRaw x && noFloatRawSeq t

/-- noFloatRaw over object field values. -/
def noFloatRawFields : JsonFields → Bool
  | .nil => true
  | .cons _ v t => noFloatRaw v && noFloatRawFields t

end

mutual

/-- The nesting budget a value needs to decode: decode requires a positive
level for any value and each container level consumes one. -/
def nestingNeed : JsonThing → Nat
  | .array es => seqNeed es + 1
  | .object fs => fieldsNeed fs + 1
  | _ => 1

/-- Maximal need over array elements. -/
def seqNeed : JsonSeq → Nat
  | .nil => 0
  | .cons x t => max (nestingNeed x) (seqNeed t)

/-- Maximal need over object field values. -/
def fieldsNeed : JsonFields → Nat
  | .nil => 0
  | .cons _ v t => max (nestingNeed v) (fieldsNeed t)

end

mutual

/-- The image of a value after one encode/decode round trip: decoding
re-derives the numeric kind from the digits, so a small Unsigned comes back
as Integer and Integer LLONG_MIN comes back as the Float -(double)2^63;
everything else (without Float/Raw) returns unchanged. -/
def reclassify : JsonThing → JsonThing
  | .array es => .array (reclassifySeq es)
  | .object fs => .object (reclassifyFields fs)
  | .string s => .string s
  | .integer n => if n = -(2 ^ 63 : Int) then .float (.fin (n : ℚ)) else .integer n
  | .unsignedInt u => if u < 2 ^ 63 then .integer (u : Int) else .unsignedInt u
  | .float d => .float d
  | .boolean b => .boolean b
  | .null => .null
  | .raw r => .raw r

/-- reclassify over array elements. -/
def reclassifySeq : JsonSeq → JsonSeq
  | .nil => .nil
  | .cons x t => .cons (reclassify x) (reclassifySeq t)

/-- reclassify over object fields. -/
def reclassifyFields : JsonFields → JsonFields
  | .nil => .nil
  | .cons k v t => .cons k (reclassify v) (reclassifyFields t)

end

example : wfThing (.object (.cons [97] (.integer 3) .nil)) = true := rfl
example : nestingNeed (.array (.cons (.integer 3) .nil)) = 2 := rfl

/-- A 30-element array built through the public constructors (reachable
state for the JIT claims). -/
def mkRangeArray (n : Nat) : JitArray Nat :=
  (List.range n).foldl json_add_to_array json_make_array

/-- C1: decoding "-9223372036854775808" (magnitude exactly 2^63) does not
produce Integer(LLONG_MIN) as the spec and the repository's own
test_signed require: decode_negative_number compares the Unsigned
magnitude with `<` against (unsigned long long)LLONG_MIN, so the magnitude
2^63 falls into the Float fallback and the result is
Float(-(double)2^63). -/
theorem decode_minus_2pow63_yields_float :
    json_utf8_decode (strBytes "-9223372036854775808") =
      some (.float (.fin (-(2 ^ 63 : ℚ)))) := by
  rfl

/-- C3: with a Raw operand whose bytes are not valid JSON, json_thing_equal
decodes NULL and recurses on it, dereferencing the NULL pointer (modelled
as `none`) instead of returning false; with parseable Raw bytes the retry
works as specified. -/
theorem equal_invalid_raw_crashes :
    json_thing_equal .null (.raw (strBytes "x")) 0 = none ∧
      json_thing_equal .null (.raw (strBytes "null")) 0 = some true := by
  constructor <;> rfl

/-- C4: isnormal(0.0) is false, so json_make_float's assert(isnormal(n))
fails on zero (modelled as `none`), and decoding "0.0" — whose
string-to-double result is zero — reaches json_make_float(0) through
decode_float's FP_ZERO branch and aborts instead of producing
Float(0.0). -/
theorem make_float_zero_asserts :
    json_make_float (.fin 0) = none ∧ json_utf8_decode (strBytes "0.0") = none := by
  exact ⟨rfl, rfl⟩

/-- C9 counterexample: appending to a 30-element array whose counter has
reached 29 (by a positional read) and which has no overlay leaves the
counter at 29: clobber_array returns early when no lookup table exists, so
the append does not reset the counter to zero as the claim states. -/
theorem append_without_overlay_keeps_counter :
    (json_array_get (mkRangeArray 30) 29).2.lookup_table = none ∧
      (json_array_get (mkRangeArray 30) 29).2.random_access_counter = 29 ∧
      (json_add_to_array (json_array_get (mkRangeArray 30) 29).2 99).random_access_counter
        = 29 := by
  refine ⟨?_, ?_, ?_⟩ <;> rfl

/-- C9 amended: an append always appends the element and always leaves the
array without an overlay, but it resets the random-access counter to zero
only when an overlay existed; with no overlay the counter is kept, so the
budget to the next overlay build is not replenished. -/
theorem add_to_array_spec {α : Type} (a : JitArray α) (x : α) :
    (json_add_to_array a x).elements = a.elements ++ [x] ∧
      (json_add_to_array a x).lookup_table = none ∧
      (json_add_to_array a x).random_access_counter =
        (if a.lookup_table.isNone then a.random_access_counter else 0) := by
  obtain ⟨es, cnt, tbl⟩ := a
  cases tbl <;> simp [json_add_to_array, clobber_array]

/-- C10: a positional read at or beyond the array size returns NULL before
any counter or overlay activity, leaving the array state unchanged. -/
theorem array_get_out_of_range {α : Type} (a : JitArray α) (n : Nat)
    (h : a.elements.length ≤ n) : json_array_get a n = (none, a) := by
  simp [json_array_get, json_array_get_go, h]

/-- C10 witness: a concrete out-of-range read on a two-element array. -/
theorem array_get_out_of_range_witness :
    (⟨[5, 6], 7, none⟩ : JitArray Nat).elements.length ≤ 9 ∧
      json_array_get (⟨[5, 6], 7, none⟩ : JitArray Nat) 9 =
        (none, ⟨[5, 6], 7, none⟩) := by
  exact ⟨by decide, array_get_out_of_range ⟨[5, 6], 7, none⟩ 9 (by decide)⟩

/-- The byte after a number inside an encoded document: end of input, or a
separator (comma, closing bracket, closing brace). -/
def SepOrEnd : List Nat → Prop
  | [] => True
  | c :: _ => c = 44 ∨ c = 93 ∨ c = 125

/-- The exact digit fold only grows. -/
theorem foldl_digits_ge (L : List Nat) (v : Nat) :
    v ≤ L.foldl (fun a c => a * 10 + (c - 48)) v := by
  induction L generalizing v with
  | nil => simp
  | cons c t ih =>
    calc v ≤ v * 10 + (c - 48) := by omega
    _ ≤ _ := ih _

/-- Without 64-bit overflow of the exact value, the accumulating loop of
decode_unsigned computes the exact digit fold. -/
theorem decode_unsigned_loop_eq (L : List Nat) (v : Nat)
    (hd : ∀ c ∈ L, 48 ≤ c)
    (hlt : L.foldl (fun a c => a * 10 + (c - 48)) v < 2 ^ 64) :
    decode_unsigned_loop L v = some (L.foldl (fun a c => a * 10 + (c - 48)) v) := by
  induction L generalizing v with
  | nil => simp [decode_unsigned_loop]
  | cons c t ih =>
    have hc : 48 ≤ c := hd c (by simp)
    have hstep : v * 10 + c - 48 = v * 10 + (c - 48) := by omega
    have hle : v * 10 + (c - 48) ≤ t.foldl (fun a c => a * 10 + (c - 48)) (v * 10 + (c - 48)) :=
      foldl_digits_ge t _
    have hfold : (c :: t).foldl (fun a c => a * 10 + (c - 48)) v =
        t.foldl (fun a c => a * 10 + (c - 48)) (v * 10 + (c - 48)) := by simp
    rw [hfold] at hlt
    have hmod : (v * 10 + c - 48) % 2 ^ 64 = v * 10 + (c - 48) := by
      rw [hstep]
      exact Nat.mod_eq_of_lt (lt_of_le_of_lt hle hlt)
    have hnotlt : ¬ (v * 10 + c - 48) % 2 ^ 64 < v := by omega
    simp only [decode_unsigned_loop, hnotlt, if_false]
    rw [hmod]
    exact ih _ (fun c hm => hd c (by simp [hm])) hlt

/-- decode_unsigned on digits whose exact value fits 64 bits: Integer below
2^63, Unsigned from 2^63 to 2^64. -/
theorem decode_unsigned_eq (L : List Nat) (hd : ∀ c ∈ L, 48 ≤ c)
    (hlt : parseDigitsNat L < 2 ^ 64) :
    decode_unsigned L =
      some (if parseDigitsNat L < 2 ^ 63 then .integer (parseDigitsNat L)
            else .unsignedInt (parseDigitsNat L)) := by
  have h := decode_unsigned_loop_eq L 0 hd hlt
  simp only [decode_unsigned, parseDigitsNat] at h ⊢
  rw [h]
  split <;> simp_all <;> split <;> simp_all

/-- The digit bytes produced by natDecimalCore fold back to the number. -/
theorem natDecimalCore_foldl (f : Nat) : ∀ n a, n < f →
    (natDecimalCore f n).foldl (fun x c => x * 10 + (c - 48)) a =
      a * 10 ^ (natDecimalCore f n).length + n := by
  induction f with
  | zero => intro n a h; omega
  | succ f ih =>
    intro n a h
    by_cases h0 : n = 0
    · simp [natDecimalCore, h0]
    · have hq : n / 10 < f := by
        have h1 : n / 10 < n := Nat.div_lt_self (by omega) (by omega)
        omega
      have hmod : n % 10 < 10 := Nat.mod_lt _ (by omega)
      simp only [natDecimalCore, h0, if_false, List.foldl_append, List.length_append,
        List.foldl_cons, List.foldl_nil, List.length_cons, List.length_nil]
      rw [ih (n / 10) a hq]
      have : 48 + n % 10 - 48 = n % 10 := by omega
      rw [this, pow_succ]
      have : a * (10 ^ (natDecimalCore f (n / 10)).length * 10) =
          a * 10 ^ (natDecimalCore f (n / 10)).length * 10 := by ring
      rw [this]
      omega

/-- natDecimalCore emits decimal digit bytes. -/
theorem natDecimalCore_digits (f : Nat) : ∀ n c, c ∈ natDecimalCore f n → isDigitB c = true := by
  induction f with
  | zero => intro n c h; simp [natDecimalCore] at h
  | succ f ih =>
    intro n c h
    by_cases h0 : n = 0
    · simp [natDecimalCore, h0] at h
    · simp only [natDecimalCore, h0, if_false, List.mem_append, List.mem_singleton] at h
      rcases h with h | h
      · exact ih _ _ h
      · have : n % 10 < 10 := Nat.mod_lt _ (by omega)
        subst h
        simp [isDigitB]
        omega

/-- natDecimal emits decimal digit bytes. -/
theorem natDecimal_digits (n : Nat) : ∀ c ∈ natDecimal n, isDigitB c = true := by
  intro c h
  by_cases h0 : n = 0
  · simp [natDecimal, h0] at h
    simp [h, isDigitB]
  · simp only [natDecimal, h0, if_false] at h
    exact natDecimalCore_digits _ _ _ h

/-- natDecimal is never empty. -/
theorem natDecimal_ne_nil (n : Nat) : natDecimal n ≠ [] := by
  by_cases h0 : n = 0
  · simp [natDecimal, h0]
  · simp only [natDecimal, h0, if_false]
    cases hE : natDecimalCore (n + 1) n with
    | nil =>
      have := natDecimalCore_foldl (n + 1) n 0 (by omega)
      rw [hE] at this
      simp at this
      omega
    | cons a l => simp

/-- Parsing the decimal rendering of n recovers n. -/
theorem parse_natDecimal (n : Nat) : parseDigitsNat (natDecimal n) = n := by
  by_cases h0 : n = 0
  · simp [natDecimal, h0, parseDigitsNat]
  · simp only [natDecimal, h0, if_false, parseDigitsNat]
    rw [natDecimalCore_foldl (n + 1) n 0 (by omega)]
    simp

/-- takeWhile/dropWhile split of a run of satisfying bytes followed by a
non-satisfying byte (or the end). -/
theorem takeWhile_append_all (p : Nat → Bool) (L rest : List Nat)
    (h : ∀ c ∈ L, p c = true)
    (hr : rest = [] ∨ ∃ c2 t2, rest = c2 :: t2 ∧ p c2 = false) :
    (L ++ rest).takeWhile p = L ∧ (L ++ rest).dropWhile p = rest := by
  induction L with
  | nil =>
    rcases hr with h0 | ⟨c2, t2, he, hp⟩
    · simp [h0]
    · subst he
      simp [List.takeWhile, List.dropWhile, hp]
  | cons a L ih =>
    have ha : p a = true := h a (by simp)
    have := ih (fun c hc => h c (by simp [hc]))
    simp_all [List.takeWhile, List.dropWhile]

/-- decode_number on a nonempty run of digits followed by a separator or
the end of input: the digits go to decode_unsigned and the separator is
left unconsumed. -/
theorem decode_number_sep (L rest : List Nat) (hd : ∀ c ∈ L, isDigitB c = true)
    (hne : L ≠ []) (hsep : SepOrEnd rest) :
    decode_number (L ++ rest) = (decode_unsigned L).map (fun th => (th, rest)) := by
  cases L with
  | nil => exact absurd rfl hne
  | cons c t =>
    have hc : isDigitB c = true := hd c (by simp)
    have hr : rest = [] ∨ ∃ c2 t2, rest = c2 :: t2 ∧ isDigitB c2 = false := by
      cases rest with
      | nil => exact Or.inl rfl
      | cons c2 t2 =>
        refine Or.inr ⟨c2, t2, rfl, ?_⟩
        simp only [SepOrEnd] at hsep
        rcases hsep with h | h | h <;> subst h <;> rfl
    obtain ⟨htake, hdrop⟩ :=
      takeWhile_append_all isDigitB t rest (fun x hx => hd x (by simp [hx])) hr
    cases rest with
    | nil =>
      rw [List.append_nil] at htake hdrop
      simp [decode_number, hc, htake, hdrop]
    | cons c2 t2 =>
      simp only [SepOrEnd] at hsep
      have h46 : ¬ c2 = 46 := by omega
      have h69 : ¬ (c2 = 69 ∨ c2 = 101) := by omega
      simp [decode_number, hc, htake, hdrop, h46, h69]

/-- Whitespace skipping does not move past a digit (or any non-whitespace
byte). -/
theorem skip_ws_cons (c : Nat) (t : List Nat)
    (h : ¬ (c = 32 ∨ c = 9 ∨ c = 13 ∨ c = 10)) : skip_ws (c :: t) = c :: t := by
  simp only [skip_ws, Bool.or_eq_true, decide_eq_true_eq]
  rw [if_neg (by tauto)]

/-- The decode dispatch sends a digit-headed input to decode_number. -/
theorem decodeVal_number (f : Nat) (c : Nat) (t : List Nat) (levels : Nat)
    (hc : isDigitB c = true) (hlev : levels ≠ 0) :
    decodeVal (f + 1) (c :: t) levels = decode_number (c :: t) := by
  have hcv : 48 ≤ c ∧ c ≤ 57 := by
    simpa [isDigitB] using hc
  have hws : skip_ws (c :: t) = c :: t := skip_ws_cons c t (by omega)
  simp only [decodeVal, hlev, if_false, hws]
  rw [if_neg (by omega), if_neg (by omega), if_neg (by omega), if_neg (by omega),
    if_neg (by omega), if_neg (by omega), if_neg (by omega), if_pos hc]

/-- C2 counterexample: the digit string "30000000000000000000" (value
3*10^19, above 2^64) decodes to the wrapped Unsigned(11553255926290448384)
= 3*10^19 mod 2^64, not to Float: the loop's wraparound test
new_value < value misses this overflow. -/
theorem decode_3e19_wraps :
    json_utf8_decode (strBytes "30000000000000000000") =
      some (.unsignedInt 11553255926290448384) := by
  rfl

/-- C2 amended: digit strings whose value fits in 64 bits classify as
Integer (below 2^63) or Unsigned (otherwise); 2^64 itself is caught by the
wraparound test and falls back to Float; but a value of at least 2^64 whose
accumulator never wraps below its previous value is reduced mod 2^64 and
classified as Integer/Unsigned, as for "30000000000000000000". -/
theorem number_classification :
    (∀ L : List Nat, L ≠ [] → (∀ c ∈ L, isDigitB c = true) → parseDigitsNat L < 2 ^ 64 →
      json_utf8_decode L =
        some (if parseDigitsNat L < 2 ^ 63 then .integer (parseDigitsNat L)
              else .unsignedInt (parseDigitsNat L))) ∧
    json_utf8_decode (strBytes "18446744073709551616") =
      some (.float (.fin ((18446744073709551616 : Int) : ℚ))) ∧
    json_utf8_decode (strBytes "30000000000000000000") =
      some (.unsignedInt (30000000000000000000 % 2 ^ 64)) := by
  refine ⟨?_, by rfl, by rfl⟩
  intro L hne hd hlt
  cases L with
  | nil => exact absurd rfl hne
  | cons c t =>
    have hc : isDigitB c = true := hd c (by simp)
    have h1 : decodeVal ((c :: t).length + 1) (c :: t) MAX_DECODE_NESTING_LEVELS =
        decode_number (c :: t) := by
      have : (c :: t).length + 1 = (c :: t).length + 1 := rfl
      exact decodeVal_number _ c t _ hc (by simp [MAX_DECODE_NESTING_LEVELS])
    have h2 : decode_number ((c :: t) ++ []) =
        (decode_unsigned (c :: t)).map (fun th => (th, ([] : List Nat))) :=
      decode_number_sep (c :: t) [] hd hne trivial
    rw [List.append_nil] at h2
    have h3 := decode_unsigned_eq (c :: t) (fun x hx => by
      have := hd x hx
      simp [isDigitB] at this
      omega) hlt
    simp only [json_utf8_decode, h1, h2, h3, Option.map_some]
    simp [skip_ws]

/-- C2 witness: the single digit "5" classifies as Integer(5). -/
theorem number_classification_witness :
    json_utf8_decode [53] = some (.integer 5) := by
  have h := number_classification.1 [53] (by decide) (by decide) (by decide)
  simpa using h

/-- Disjoint bitwise or is addition: low bits below the shift width add
up. -/
theorem shiftLeft_lor_add (k : Nat) : ∀ a b : Nat, b < 2 ^ k → a <<< k ||| b = a <<< k + b := by
  induction k with
  | zero =>
    intro a b hb
    interval_cases b
    simp
  | succ k ih =>
    intro a b hb
    have hsplit : Nat.bit b.bodd b.div2 = b := Nat.bit_decomp b
    have hshift : a <<< (k + 1) = Nat.bit false (a <<< k) := by
      simp [Nat.bit, Nat.shiftLeft_succ_inside, Nat.shiftLeft_eq]
      ring
    have hdiv : b.div2 < 2 ^ k := by
      have := Nat.bit_lt_two_pow_succ_iff (b := b.bodd) (x := b.div2) (n := k)
      rw [hsplit] at this
      exact this.mp hb
    calc a <<< (k + 1) ||| b = Nat.bit false (a <<< k) ||| Nat.bit b.bodd b.div2 := by
          rw [hshift, hsplit]
    _ = Nat.bit (false || b.bodd) (a <<< k ||| b.div2) := Nat.lor_bit false (a <<< k) b.bodd b.div2
    _ = 2 * (a <<< k + b.div2) + b.bodd.toNat := by rw [ih _ _ hdiv, Nat.bit_val, Bool.false_or]
    _ = a <<< (k + 1) + b := by
      have hsh2 : a <<< (k + 1) = 2 * (a <<< k) := by
        rw [hshift, Nat.bit_val]
        simp
      have hb2 : 2 * b.div2 + b.bodd.toNat = b := by
        have := Nat.bit_val b.bodd b.div2
        rw [hsplit] at this
        omega
      rw [hsh2]
      omega

/-- The four hex digit characters printed for a value below 0x10000. -/
def hexQuad (v : Nat) : List Nat :=
  [hexChar (v / 4096 % 16), hexChar (v / 256 % 16), hexChar (v / 16 % 16), hexChar (v % 16)]

/-- charstr_digit_value inverts hexChar on hex digit values. -/
theorem hexChar_value (x : Nat) (h : x < 16) : charstr_digit_value (hexChar x) = some x := by
  interval_cases x <;> rfl

/-- scan_hex_digit consumes one recognized digit. -/
theorem scan_hex_digit_cons (c d : Nat) (rest : List Nat)
    (h : charstr_digit_value c = some d) : scan_hex_digit (c :: rest) = some (d, rest) := by
  simp [scan_hex_digit, h]

/-- scan_ucs2 inverts the four-hex-digit rendering of any 16-bit value. -/
theorem scan_ucs2_hexQuad (v : Nat) (hv : v < 65536) (rest : List Nat) :
    scan_ucs2 (hexQuad v ++ rest) = some (v, rest) := by
  have hval : v / 4096 % 16 * 4096 + v / 256 % 16 * 256 + v / 16 % 16 * 16 + v % 16 = v := by
    omega
  have hb0 : v / 4096 % 16 < 16 := Nat.mod_lt _ (by omega)
  have hb1 : v / 256 % 16 < 16 := Nat.mod_lt _ (by omega)
  have hb2 : v / 16 % 16 < 16 := Nat.mod_lt _ (by omega)
  have hb3 : v % 16 < 16 := Nat.mod_lt _ (by omega)
  obtain ⟨d0, hd0, hd0v⟩ : ∃ d, d < 16 ∧ v / 4096 % 16 = d := ⟨_, hb0, rfl⟩
  obtain ⟨d1, hd1, hd1v⟩ : ∃ d, d < 16 ∧ v / 256 % 16 = d := ⟨_, hb1, rfl⟩
  obtain ⟨d2, hd2, hd2v⟩ : ∃ d, d < 16 ∧ v / 16 % 16 = d := ⟨_, hb2, rfl⟩
  obtain ⟨d3, hd3, hd3v⟩ : ∃ d, d < 16 ∧ v % 16 = d := ⟨_, hb3, rfl⟩
  rw [hd0v, hd1v, hd2v, hd3v] at hval
  have h0 := hexChar_value d0 hd0
  have h1 := hexChar_value d1 hd1
  have h2 := hexChar_value d2 hd2
  have h3 := hexChar_value d3 hd3
  have hscan : scan_ucs2 (hexQuad v ++ rest) =
      some (d0 <<< 12 ||| d1 <<< 8 ||| d2 <<< 4 ||| d3, rest) := by
    simp only [hexQuad, hd0v, hd1v, hd2v, hd3v, List.cons_append, List.nil_append, scan_ucs2]
    rw [scan_hex_digit_cons _ _ _ h0, Option.some_bind, scan_hex_digit_cons _ _ _ h1,
      Option.some_bind, scan_hex_digit_cons _ _ _ h2, Option.some_bind,
      scan_hex_digit_cons _ _ _ h3]
    rfl
  rw [hscan, Nat.lor_assoc, Nat.lor_assoc]
  have e34 : d2 <<< 4 ||| d3 = d2 * 16 + d3 := by
    rw [shiftLeft_lor_add 4 _ _ (by omega), Nat.shiftLeft_eq]
  have hlt34 : d2 * 16 + d3 < 2 ^ 8 := by norm_num; omega
  have e234 : d1 <<< 8 ||| (d2 * 16 + d3) = d1 * 256 + (d2 * 16 + d3) := by
    rw [shiftLeft_lor_add 8 _ _ hlt34, Nat.shiftLeft_eq]
  have hlt234 : d1 * 256 + (d2 * 16 + d3) < 2 ^ 12 := by norm_num; omega
  have e1234 : d0 <<< 12 ||| (d1 * 256 + (d2 * 16 + d3)) =
      d0 * 4096 + (d1 * 256 + (d2 * 16 + d3)) := by
    rw [shiftLeft_lor_add 12 _ _ hlt234, Nat.shiftLeft_eq]
  rw [e34, e234, e1234]
  have : d0 * 4096 + (d1 * 256 + (d2 * 16 + d3)) = v := by omega
  rw [this]

/-- C8: a high-surrogate hex escape must be followed by a backslash-u low
surrogate; the pair combines to 0x10000 + ((hi - 0xD800) shl 10 or
(lo - 0xDC00)); a lone low surrogate fails; and the concrete pair
D852/DF62 decodes inside a JSON string to the UTF-8 bytes F0 A4 AD A2. -/
theorem surrogate_pair_decoding :
    (∀ (hi lo : Nat) (rest : List Nat),
      high_surrogate hi = true → low_surrogate lo = true →
      scan_utf16 (hexQuad hi ++ (92 :: 117 :: (hexQuad lo ++ rest))) =
        some (0x10000 + ((hi - 0xd800) <<< 10 ||| (lo - 0xdc00)), rest)) ∧
    (∀ (lo : Nat) (rest : List Nat), low_surrogate lo = true →
      scan_utf16 (hexQuad lo ++ rest) = none) ∧
    json_utf8_decode (strBytes "\"\\uD852\\uDF62\"") =
      some (.string [0xf0, 0xa4, 0xad, 0xa2]) := by
  refine ⟨?_, ?_, by rfl⟩
  · intro hi lo rest hhi hlo
    have hhiv : 0xd800 ≤ hi ∧ hi ≤ 0xdbff := by simpa [high_surrogate] using hhi
    have hlov : 0xdc00 ≤ lo ∧ lo ≤ 0xdfff := by simpa [low_surrogate] using hlo
    have hs1 := scan_ucs2_hexQuad hi (by omega) (92 :: 117 :: (hexQuad lo ++ rest))
    have hs2 := scan_ucs2_hexQuad lo (by omega) rest
    have hnotlow : low_surrogate hi = false := by
      simp only [low_surrogate, Bool.and_eq_false_iff, decide_eq_false_iff_not]
      left
      omega
    have hbound : (hi - 0xd800) <<< 10 ||| (lo - 0xdc00) < 2 ^ (10 + 10) :=
      Nat.append_lt (x := lo - 0xdc00) (y := hi - 0xd800) (by omega) (by omega)
    have hvalid : valid_unicode (0x10000 + ((hi - 0xd800) <<< 10 ||| (lo - 0xdc00))) = true := by
      simp only [valid_unicode, Bool.or_eq_true, decide_eq_true_eq, Bool.and_eq_true]
      norm_num at hbound ⊢
      omega
    rw [scan_utf16, hs1, Option.some_bind, hnotlow]
    simp only [Bool.false_eq_true, if_false, hhi, Bool.true_eq_false, skip, if_pos rfl,
      Option.some_bind, hs2, hlo, hvalid, if_true]
    simp
  · intro lo rest hlo
    have hs := scan_ucs2_hexQuad lo (by
      have := by simpa [low_surrogate] using hlo
      omega) rest
    simp [scan_utf16, hs, hlo]

/-- C8 witness: the concrete pair D852/DF62 combines to 0x24B62 and the
lone low surrogate DF62 fails. -/
theorem surrogate_pair_decoding_witness :
    scan_utf16 (hexQuad 0xd852 ++ (92 :: 117 :: (hexQuad 0xdf62 ++ []))) =
      some (0x24b62, []) ∧
      scan_utf16 (hexQuad 0xdf62 ++ []) = none := by
  constructor
  · have h := surrogate_pair_decoding.1 0xd852 0xdf62 [] (by decide) (by decide)
    simpa using h
  · exact surrogate_pair_decoding.2.1 0xdf62 [] (by decide)

/-- encode_char in terms of the untruncated stream: append what fits. -/
theorem encode_char_spec (c : Nat) (st : List Nat) (cap : Nat) (h : st.length ≤ cap) :
    encode_char c st cap = st ++ [c].take (cap - st.length) := by
  by_cases hlt : st.length < cap
  · have : 1 ≤ cap - st.length := by omega
    simp [encode_char, hlt, List.take_of_length_le, this]
  · have : cap - st.length = 0 := by omega
    simp [encode_char, hlt, this]

/-- Sequencing two truncated emissions equals one truncated emission of
the concatenation. -/
theorem emit_chain (st E B : List Nat) (cap : Nat) (h : st.length ≤ cap) :
    (st ++ E.take (cap - st.length)) ++
        B.take (cap - (st ++ E.take (cap - st.length)).length) =
      st ++ (E ++ B).take (cap - st.length) := by
  rw [List.append_assoc]
  congr 1
  rw [List.take_append_eq_append_take]
  congr 1
  simp only [List.length_append, List.length_take]
  congr 1
  omega

/-- A truncated emission never exceeds the capacity. -/
theorem emit_len_le (st E : List Nat) (cap : Nat) (h : st.length ≤ cap) :
    (st ++ E.take (cap - st.length)).length ≤ cap := by
  simp only [List.length_append, List.length_take]
  omega

/-- encode_repr emits the NUL-truncated bytes and counts them. -/
theorem encode_repr_spec : ∀ (r st : List Nat) (cap : Nat), st.length ≤ cap →
    encode_repr r st cap = ((r.takeWhile (fun c => c ≠ 0)).length,
      st ++ (r.takeWhile (fun c => c ≠ 0)).take (cap - st.length))
  | [], st, cap, h => by simp [encode_repr]
  | c :: t, st, cap, h => by
    by_cases hc : c = 0
    · simp [encode_repr, hc, List.takeWhile]
    · have hch := encode_char_spec c st cap h
      have hlen := emit_len_le st [c] cap h
      have ih := encode_repr_spec t (st ++ [c].take (cap - st.length)) cap hlen
      have hchain := emit_chain st [c] (t.takeWhile (fun c => c ≠ 0)) cap h
      simp only [encode_repr, hc, if_false]
      rw [hch, ih]
      simp only [Prod.mk.injEq]
      refine ⟨?_, ?_⟩
      · simp [List.takeWhile, hc]
      · rw [hchain]
        simp [List.takeWhile, hc]

/-- takeWhile with the nonzero test keeps a NUL-free list whole. -/
theorem takeWhile_ne_zero_self : ∀ (l : List Nat), (∀ c ∈ l, c ≠ 0) →
    l.takeWhile (fun c => c ≠ 0) = l
  | [], _ => rfl
  | c :: t, h => by
    have hc : c ≠ 0 := h c (by simp)
    have ih := takeWhile_ne_zero_self t (fun x hx => h x (by simp [hx]))
    simp [List.takeWhile_cons, hc, ih]
    exact fun x hx => h x (by simp [hx])

/-- hexChar never produces NUL. -/
theorem hexChar_ne_zero (d : Nat) : hexChar d ≠ 0 := by
  simp only [hexChar]
  split <;> omega

/-- The bytes of a \u escape are never NUL. -/
theorem sprintfU04x_ne_zero (v : Nat) : ∀ c ∈ sprintfU04x v, c ≠ 0 := by
  intro c hc
  simp only [sprintfU04x, List.mem_cons, List.not_mem_nil, or_false] at hc
  rcases hc with h | h | h | h | h | h <;> subst h <;>
    first
      | omega
      | exact hexChar_ne_zero _

/-- One emission followed by a writer call whose input state is the
emission's output, assembled back into a single truncated emission. -/
theorem emit_glue (st E B : List Nat) (cap n : Nat) (h : st.length ≤ cap)
    (r : Nat × List Nat)
    (hr : r = (n, (st ++ E.take (cap - st.length)) ++
      B.take (cap - (st ++ E.take (cap - st.length)).length))) :
    (E.length + r.1, r.2) = (E.length + n, st ++ (E ++ B).take (cap - st.length)) := by
  subst hr
  simp only [Prod.mk.injEq, true_and]
  exact emit_chain st E B cap h

/-- Control escapes contain no NUL byte. -/
theorem controlEscape_ne_zero (c : Nat) : ∀ x ∈ controlEscape c, x ≠ 0 := by
  intro x hx
  simp only [controlEscape] at hx
  split at hx <;>
    first
      | (simp only [List.mem_cons, List.not_mem_nil, or_false] at hx
         rcases hx with h | h <;> omega)
      | exact sprintfU04x_ne_zero _ _ hx

/-- The escaping loop in buffer-writing form emits exactly the bytes of
escBody, truncated to the capacity, and counts them all. -/
theorem escBodyW_spec : ∀ (s st : List Nat) (cap : Nat), st.length ≤ cap →
    escBodyW s st cap = ((escBody s).length, st ++ (escBody s).take (cap - st.length))
  | [], st, cap, h => by simp [escBodyW, escBody]
  | [c], st, cap, h => by
    by_cases hc0 : c = 0
    · simp [escBodyW, escBody, hc0]
    by_cases hctl : is_ascii_control_character c = true
    · have hE := encode_repr_spec (controlEscape c) st cap h
      rw [takeWhile_ne_zero_self (controlEscape c) (controlEscape_ne_zero c)] at hE
      simp [escBodyW, escBody, hc0, hctl, hE]
    by_cases hbq : (c = 92 || c = 34) = true
    · have h1 := encode_char_spec 92 st cap h
      have hlen1 := emit_len_le st [92] cap h
      have h2 := encode_char_spec c (st ++ [92].take (cap - st.length)) cap hlen1
      have hjoin := emit_chain st [92] [c] cap h
      simp [escBodyW, escBody, hc0, hctl, hbq, h1, h2]
      simpa using hjoin
    · have h1 := encode_char_spec c st cap h
      simp [escBodyW, escBody, hc0, hctl, hbq, h1]
  | c :: c2 :: t, st, cap, h => by
    by_cases hc0 : c = 0
    · simp [escBodyW, escBody, hc0]
    by_cases hctl : is_ascii_control_character c = true
    · have hE := encode_repr_spec (controlEscape c) st cap h
      rw [takeWhile_ne_zero_self (controlEscape c) (controlEscape_ne_zero c)] at hE
      have hlen := emit_len_le st (controlEscape c) cap h
      have ih := escBodyW_spec (c2 :: t) (st ++ (controlEscape c).take (cap - st.length)) cap hlen
      have hchain := emit_chain st (controlEscape c) (escBody (c2 :: t)) cap h
      simp only [escBodyW, escBody, hc0, if_false, hctl, if_true, hE, ih]
      simp only [Prod.mk.injEq, List.length_append]
      refine ⟨trivial, ?_⟩
      simpa using hchain
    by_cases hlat : (c = 0xc2 && c2 &&& 0xe0 == 0x80) = true
    · have hE := encode_repr_spec (sprintfU04x ((c &&& 0x1f) <<< 6 ||| (c2 &&& 0x3f))) st cap h
      rw [takeWhile_ne_zero_self _ (sprintfU04x_ne_zero _)] at hE
      have hlen := emit_len_le st (sprintfU04x ((c &&& 0x1f) <<< 6 ||| (c2 &&& 0x3f))) cap h
      have ih := escBodyW_spec t
        (st ++ (sprintfU04x ((c &&& 0x1f) <<< 6 ||| (c2 &&& 0x3f))).take (cap - st.length)) cap hlen
      have hchain := emit_chain st (sprintfU04x ((c &&& 0x1f) <<< 6 ||| (c2 &&& 0x3f)))
        (escBody t) cap h
      simp only [escBodyW, escBody, hc0, if_false, hctl, Bool.false_eq_true, hlat, if_true,
        hE, ih]
      simp only [Prod.mk.injEq, List.length_append]
      refine ⟨trivial, ?_⟩
      simpa using hchain
    by_cases hbq : (c = 92 || c = 34) = true
    · have h1 := encode_char_spec 92 st cap h
      have hlen1 := emit_len_le st [92] cap h
      have h2 := encode_char_spec c (st ++ [92].take (cap - st.length)) cap hlen1
      have hjoin : (st ++ [92].take (cap - st.length)) ++
          [c].take (cap - (st ++ [92].take (cap - st.length)).length) =
            st ++ ([92] ++ [c]).take (cap - st.length) := emit_chain st [92] [c] cap h
      have hlen2 : (st ++ ([92] ++ [c]).take (cap - st.length)).length ≤ cap :=
        emit_len_le st ([92] ++ [c]) cap h
      have ih := escBodyW_spec (c2 :: t) (st ++ ([92] ++ [c]).take (cap - st.length)) cap hlen2
      have hchain := emit_chain st ([92] ++ [c]) (escBody (c2 :: t)) cap h
      simp only [escBodyW, escBody, hc0, if_false, hctl, Bool.false_eq_true, hlat, hbq, if_true,
        h1, h2, hjoin, ih]
      simp only [Prod.mk.injEq]
      constructor
      · simp only [List.length_append, List.length_cons]
        omega
      · simpa using hchain
    · have h1 := encode_char_spec c st cap h
      have hlen1 := emit_len_le st [c] cap h
      have ih := escBodyW_spec (c2 :: t) (st ++ [c].take (cap - st.length)) cap hlen1
      have hchain := emit_chain st [c] (escBody (c2 :: t)) cap h
      simp only [escBodyW, escBody, hc0, if_false, hctl, Bool.false_eq_true, hlat, hbq,
        h1, ih]
      simp only [Prod.mk.injEq]
      constructor
      · simp only [List.length_cons]
        omega
      · simpa using hchain

/-- The string writer emits quote, escaped body, quote, and counts them. -/
theorem encode_string_valueW_spec (s st : List Nat) (cap : Nat) (h : st.length ≤ cap) :
    encode_string_valueW s st cap =
      ((encStringBytes s).length, st ++ (encStringBytes s).take (cap - st.length)) := by
  have h1 := encode_char_spec 34 st cap h
  have hlen1 := emit_len_le st [34] cap h
  have h2 := escBodyW_spec s (st ++ [34].take (cap - st.length)) cap hlen1
  have hj12 := emit_chain st [34] (escBody s) cap h
  have hlen2 : (st ++ ([34] ++ escBody s).take (cap - st.length)).length ≤ cap :=
    emit_len_le st ([34] ++ escBody s) cap h
  have h3 := encode_char_spec 34 (st ++ ([34] ++ escBody s).take (cap - st.length)) cap hlen2
  have hj3 := emit_chain st ([34] ++ escBody s) [34] cap h
  simp only [encode_string_valueW, h1, h2, hj12, h3, hj3]
  simp only [Prod.mk.injEq, encStringBytes]
  constructor
  · simp only [List.length_append, List.length_cons, List.length_nil]
    omega
  · have he : (34 :: escBody s ++ [34]) = ([34] ++ escBody s) ++ [34] := by simp
    rw [he]

/-- The %lld rendering contains no NUL byte. -/
theorem intDecimal_mem_ne_zero (i : Int) : ∀ c ∈ intDecimal i, c ≠ 0 := by
  intro c hc
  simp only [intDecimal] at hc
  split at hc
  · simp only [List.mem_cons] at hc
    rcases hc with h | h
    · omega
    · have := natDecimal_digits _ _ h
      simp [isDigitB] at this
      omega
  · have := natDecimal_digits _ _ hc
    simp [isDigitB] at this
    omega

/-- The %llu rendering contains no NUL byte. -/
theorem natDecimal_mem_ne_zero (n : Nat) : ∀ c ∈ natDecimal n, c ≠ 0 := by
  intro c hc
  have := natDecimal_digits _ _ hc
  simp [isDigitB] at this
  omega

mutual

/-- encode_raw emits exactly encBytes, truncated to the capacity, and
returns the full untruncated length. -/
theorem encode_rawW_spec : ∀ (v : JsonThing) (st : List Nat) (cap : Nat), st.length ≤ cap →
    encode_rawW v st cap = ((encBytes v).length, st ++ (encBytes v).take (cap - st.length))
  | .array es, st, cap, h => by
    have h1 := encode_char_spec 91 st cap h
    have hlen1 := emit_len_le st [91] cap h
    have h2 := encArrLoopW_spec es (st ++ [91].take (cap - st.length)) cap hlen1
    have hj12 := emit_chain st [91] (encArrayBody es) cap h
    have hlen2 := emit_len_le st ([91] ++ encArrayBody es) cap h
    have h3 := encode_char_spec 93 (st ++ ([91] ++ encArrayBody es).take (cap - st.length))
      cap hlen2
    have hj3 := emit_chain st ([91] ++ encArrayBody es) [93] cap h
    simp only [encode_rawW, h1, h2, hj12, h3, hj3]
    simp only [Prod.mk.injEq, encBytes]
    constructor
    · simp only [List.length_append, List.length_cons, List.length_nil]
      omega
    · have he : (91 :: encArrayBody es ++ [93]) = ([91] ++ encArrayBody es) ++ [93] := by simp
      rw [he]
  | .object fs, st, cap, h => by
    have h1 := encode_char_spec 123 st cap h
    have hlen1 := emit_len_le st [123] cap h
    have h2 := encObjLoopW_spec fs (st ++ [123].take (cap - st.length)) cap hlen1
    have hj12 := emit_chain st [123] (encObjectBody fs) cap h
    have hlen2 := emit_len_le st ([123] ++ encObjectBody fs) cap h
    have h3 := encode_char_spec 125 (st ++ ([123] ++ encObjectBody fs).take (cap - st.length))
      cap hlen2
    have hj3 := emit_chain st ([123] ++ encObjectBody fs) [125] cap h
    simp only [encode_rawW, h1, h2, hj12, h3, hj3]
    simp only [Prod.mk.injEq, encBytes]
    constructor
    · simp only [List.length_append, List.length_cons, List.length_nil]
      omega
    · have he : (123 :: encObjectBody fs ++ [125]) = ([123] ++ encObjectBody fs) ++ [125] := by
        simp
      rw [he]
  | .string s, st, cap, h => by
    have hs := encode_string_valueW_spec s st cap h
    simpa [encode_rawW, encBytes] using hs
  | .integer n, st, cap, h => by
    have hrepr := encode_repr_spec (intDecimal n) st cap h
    rw [takeWhile_ne_zero_self _ (intDecimal_mem_ne_zero n)] at hrepr
    simpa [encode_rawW, encBytes] using hrepr
  | .unsignedInt u, st, cap, h => by
    have hrepr := encode_repr_spec (natDecimal u) st cap h
    rw [takeWhile_ne_zero_self _ (natDecimal_mem_ne_zero u)] at hrepr
    simpa [encode_rawW, encBytes] using hrepr
  | .float d, st, cap, h => by
    have hrepr := encode_repr_spec (floatRepr d) st cap h
    simpa [encode_rawW, encBytes] using hrepr
  | .boolean b, st, cap, h => by
    cases b
    · have hrepr := encode_repr_spec (strBytes "false") st cap h
      rw [show (strBytes "false").takeWhile (fun c => c ≠ 0) = strBytes "false" from rfl] at hrepr
      simpa [encode_rawW, encBytes] using hrepr
    · have hrepr := encode_repr_spec (strBytes "true") st cap h
      rw [show (strBytes "true").takeWhile (fun c => c ≠ 0) = strBytes "true" from rfl] at hrepr
      simpa [encode_rawW, encBytes] using hrepr
  | .null, st, cap, h => by
    have hrepr := encode_repr_spec (strBytes "null") st cap h
    rw [show (strBytes "null").takeWhile (fun c => c ≠ 0) = strBytes "null" from rfl] at hrepr
    simpa [encode_rawW, encBytes] using hrepr
  | .raw r, st, cap, h => by
    have hrepr := encode_repr_spec r st cap h
    simpa [encode_rawW, encBytes] using hrepr

/-- The element loop emits encArrayBody. -/
theorem encArrLoopW_spec : ∀ (es : JsonSeq) (st : List Nat) (cap : Nat), st.length ≤ cap →
    encArrLoopW es st cap = ((encArrayBody es).length, st ++ (encArrayBody es).take (cap - st.length))
  | .nil, st, cap, h => by simp [encArrLoopW, encArrayBody]
  | .cons x .nil, st, cap, h => by
    have hx := encode_rawW_spec x st cap h
    simpa [encArrLoopW, encArrayBody] using hx
  | .cons x (.cons y t), st, cap, h => by
    have h1 := encode_rawW_spec x st cap h
    have hlen1 := emit_len_le st (encBytes x) cap h
    have h2 := encode_char_spec 44 (st ++ (encBytes x).take (cap - st.length)) cap hlen1
    have hj12 := emit_chain st (encBytes x) [44] cap h
    have hlen2 := emit_len_le st (encBytes x ++ [44]) cap h
    have h3 := encArrLoopW_spec (.cons y t) (st ++ (encBytes x ++ [44]).take (cap - st.length))
      cap hlen2
    have hj3 := emit_chain st (encBytes x ++ [44]) (encArrayBody (.cons y t)) cap h
    simp only [encArrLoopW, h1, h2, hj12, h3, hj3]
    simp only [Prod.mk.injEq, encArrayBody]
    constructor
    · simp only [List.length_append, List.length_cons, List.length_nil]
      omega
    · have he : (encBytes x ++ 44 :: encArrayBody (JsonSeq.cons y t)) =
          (encBytes x ++ [44]) ++ encArrayBody (JsonSeq.cons y t) := by simp
      rw [he]

/-- The field loop emits encObjectBody. -/
theorem encObjLoopW_spec : ∀ (fs : JsonFields) (st : List Nat) (cap : Nat), st.length ≤ cap →
    encObjLoopW fs st cap =
      ((encObjectBody fs).length, st ++ (encObjectBody fs).take (cap - st.length))
  | .nil, st, cap, h => by simp [encObjLoopW, encObjectBody]
  | .cons k v .nil, st, cap, h => by
    have h1 := encode_string_valueW_spec k st cap h
    have hlen1 := emit_len_le st (encStringBytes k) cap h
    have h2 := encode_char_spec 58 (st ++ (encStringBytes k).take (cap - st.length)) cap hlen1
    have hj12 := emit_chain st (encStringBytes k) [58] cap h
    have hlen2 := emit_len_le st (encStringBytes k ++ [58]) cap h
    have h3 := encode_rawW_spec v (st ++ (encStringBytes k ++ [58]).take (cap - st.length))
      cap hlen2
    have hj3 := emit_chain st (encStringBytes k ++ [58]) (encBytes v) cap h
    simp only [encObjLoopW, h1, h2, hj12, h3, hj3]
    simp only [Prod.mk.injEq, encObjectBody]
    constructor
    · simp only [List.length_append, List.length_cons, List.length_nil]
      omega
    · have he : (encStringBytes k ++ 58 :: encBytes v) =
          (encStringBytes k ++ [58]) ++ encBytes v := by simp
      rw [he]
  | .cons k v (.cons k2 v2 t), st, cap, h => by
    have h1 := encode_string_valueW_spec k st cap h
    have hlen1 := emit_len_le st (encStringBytes k) cap h
    have h2 := encode_char_spec 58 (st ++ (encStringBytes k).take (cap - st.length)) cap hlen1
    have hj12 := emit_chain st (encStringBytes k) [58] cap h
    have hlen2 := emit_len_le st (encStringBytes k ++ [58]) cap h
    have h3 := encode_rawW_spec v (st ++ (encStringBytes k ++ [58]).take (cap - st.length))
      cap hlen2
    have hj3 := emit_chain st (encStringBytes k ++ [58]) (encBytes v) cap h
    have hlen3 := emit_len_le st ((encStringBytes k ++ [58]) ++ encBytes v) cap h
    have h4 := encode_char_spec 44
      (st ++ ((encStringBytes k ++ [58]) ++ encBytes v).take (cap - st.length)) cap hlen3
    have hj4 := emit_chain st ((encStringBytes k ++ [58]) ++ encBytes v) [44] cap h
    have hlen4 := emit_len_le st (((encStringBytes k ++ [58]) ++ encBytes v) ++ [44]) cap h
    have h5 := encObjLoopW_spec (.cons k2 v2 t)
      (st ++ (((encStringBytes k ++ [58]) ++ encBytes v) ++ [44]).take (cap - st.length))
      cap hlen4
    have hj5 := emit_chain st (((encStringBytes k ++ [58]) ++ encBytes v) ++ [44])
      (encObjectBody (.cons k2 v2 t)) cap h
    simp only [encObjLoopW, h1, h2, hj12, h3, hj3, h4, hj4, h5, hj5]
    simp only [Prod.mk.injEq, encObjectBody]
    constructor
    · simp only [List.length_append, List.length_cons, List.length_nil]
      omega
    · have he : (encStringBytes k ++ 58 :: encBytes v ++
            44 :: encObjectBody (JsonFields.cons k2 v2 t)) =
          (((encStringBytes k ++ [58]) ++ encBytes v) ++ [44]) ++
            encObjectBody (JsonFields.cons k2 v2 t) := by simp
      rw [he]

end


/-- The escaping loop never emits a NUL byte. -/
theorem escBody_ne_zero : ∀ (s : List Nat), ∀ c ∈ escBody s, c ≠ 0
  | [], _, hc => absurd hc (List.not_mem_nil _)
  | [c0], c, hc => by
    simp only [escBody] at hc
    split at hc
    · exact absurd hc (List.not_mem_nil _)
    · split at hc
      · exact controlEscape_ne_zero c0 c hc
      · split at hc <;> simp only [List.mem_cons, List.not_mem_nil, or_false] at hc <;> omega
  | c0 :: c1 :: t, c, hc => by
    have ih1 := escBody_ne_zero (c1 :: t)
    have ih2 := escBody_ne_zero t
    simp only [escBody] at hc
    split at hc
    · exact absurd hc (List.not_mem_nil _)
    · split at hc
      · rcases List.mem_append.mp hc with h | h
        · exact controlEscape_ne_zero c0 c h
        · exact ih1 c h
      · split at hc
        · rcases List.mem_append.mp hc with h | h
          · exact sprintfU04x_ne_zero _ c h
          · exact ih2 c h
        · split at hc
          · rcases List.mem_cons.mp hc with h | h
            · omega
            · rcases List.mem_cons.mp h with h2 | h2
              · omega
              · exact ih1 c h2
          · rcases List.mem_cons.mp hc with h | h
            · omega
            · exact ih1 c h

/-- encode_string_value never emits a NUL byte. -/
theorem encStringBytes_ne_zero (s : List Nat) : ∀ c ∈ encStringBytes s, c ≠ 0 := by
  intro c hc
  simp only [encStringBytes, List.mem_cons, List.mem_append, List.not_mem_nil, or_false] at hc
  rcases hc with (h | h) | h
  · omega
  · exact escBody_ne_zero s c h
  · omega

mutual

/-- The compact encoding of a value contains no NUL byte. -/
theorem encBytes_ne_zero : ∀ (v : JsonThing), ∀ c ∈ encBytes v, c ≠ 0
  | .array es, c, hc => by
    simp only [encBytes, List.mem_cons, List.mem_append, List.not_mem_nil, or_false] at hc
    rcases hc with (h | h) | h
    · omega
    · exact encArrayBody_ne_zero es c h
    · omega
  | .object fs, c, hc => by
    simp only [encBytes, List.mem_cons, List.mem_append, List.not_mem_nil, or_false] at hc
    rcases hc with (h | h) | h
    · omega
    · exact encObjectBody_ne_zero fs c h
    · omega
  | .string s, c, hc => encStringBytes_ne_zero s c hc
  | .integer n, c, hc => intDecimal_mem_ne_zero n c hc
  | .unsignedInt u, c, hc => natDecimal_mem_ne_zero u c hc
  | .float d, c, hc => by
    simp only [encBytes] at hc
    have := List.mem_takeWhile_imp hc
    simpa using this
  | .boolean b, c, hc => by
    cases b
    · rw [show encBytes (.boolean false) = [102, 97, 108, 115, 101] from rfl] at hc
      simp only [List.mem_cons, List.not_mem_nil, or_false] at hc
      omega
    · rw [show encBytes (.boolean true) = [116, 114, 117, 101] from rfl] at hc
      simp only [List.mem_cons, List.not_mem_nil, or_false] at hc
      omega
  | .null, c, hc => by
    rw [show encBytes .null = [110, 117, 108, 108] from rfl] at hc
    simp only [List.mem_cons, List.not_mem_nil, or_false] at hc
    omega
  | .raw r, c, hc => by
    simp only [encBytes] at hc
    have := List.mem_takeWhile_imp hc
    simpa using this

/-- The array body contains no NUL byte. -/
theorem encArrayBody_ne_zero : ∀ (es : JsonSeq), ∀ c ∈ encArrayBody es, c ≠ 0
  | .nil, c, hc => absurd (by simpa [encArrayBody] using hc) (List.not_mem_nil c)
  | .cons x .nil, c, hc => encBytes_ne_zero x c (by simpa [encArrayBody] using hc)
  | .cons x (.cons y t), c, hc => by
    simp only [encArrayBody] at hc
    rcases List.mem_append.mp hc with h | h
    · exact encBytes_ne_zero x c h
    · rcases List.mem_cons.mp h with h2 | h2
      · omega
      · exact encArrayBody_ne_zero (.cons y t) c h2

/-- The object body contains no NUL byte. -/
theorem encObjectBody_ne_zero : ∀ (fs : JsonFields), ∀ c ∈ encObjectBody fs, c ≠ 0
  | .nil, c, hc => absurd (by simpa [encObjectBody] using hc) (List.not_mem_nil c)
  | .cons k v .nil, c, hc => by
    simp only [encObjectBody] at hc
    rcases List.mem_append.mp hc with h | h
    · exact encStringBytes_ne_zero k c h
    · rcases List.mem_cons.mp h with h2 | h2
      · omega
      · exact encBytes_ne_zero v c h2
  | .cons k v (.cons k2 v2 t), c, hc => by
    simp only [encObjectBody] at hc
    rcases List.mem_append.mp hc with h | h
    · rcases List.mem_append.mp h with h2 | h2
      · exact encStringBytes_ne_zero k c h2
      · rcases List.mem_cons.mp h2 with h3 | h3
        · omega
        · exact encBytes_ne_zero v c h3
    · rcases List.mem_cons.mp h with h2 | h2
      · omega
      · exact encObjectBody_ne_zero (.cons k2 v2 t) c h2

end

/-- takeWhile up to an appended NUL recovers the whole NUL-free prefix. -/
theorem takeWhile_append_zero : ∀ (l : List Nat), (∀ c ∈ l, c ≠ 0) →
    (l ++ [0]).takeWhile (fun c => c ≠ 0) = l
  | [], _ => rfl
  | c :: t, h => by
    have hc : c ≠ 0 := h c (by simp)
    have ih := takeWhile_append_zero t (fun x hx => h x (by simp [hx]))
    simp only [List.cons_append, List.takeWhile_cons]
    rw [if_pos (by simpa using hc), ih]

/-- C6: json_utf8_encode returns the total encoding length in bytes
(excluding the NUL) regardless of the capacity; with positive capacity it
writes the first min(capacity - 1, length) bytes of the encoding followed
by a NUL terminator; and the size probe at capacity 0 equals the strlen of
the buffer produced by a call with a large-enough capacity. -/
theorem encoder_size_probe (v : JsonThing) (c : Nat) :
    (json_utf8_encode v c).1 = (encBytes v).length ∧
    (json_utf8_encode v c).2 =
      (if c = 0 then [] else (encBytes v).take (c - 1) ++ [0]) ∧
    ((json_utf8_encode v ((json_utf8_encode v 0).1 + 1)).2.takeWhile
        (fun b => b ≠ 0)).length = (json_utf8_encode v 0).1 := by
  have hspec : ∀ k : Nat, encode_rawW v [] k = ((encBytes v).length, (encBytes v).take k) := by
    intro k
    have h := encode_rawW_spec v [] k (Nat.zero_le k)
    simpa using h
  have h1 : ∀ k : Nat, (json_utf8_encode v k).1 = (encBytes v).length := by
    intro k
    by_cases hk : k = 0
    · simp [json_utf8_encode, hk, hspec]
    · simp [json_utf8_encode, hk, hspec]
  refine ⟨h1 c, ?_, ?_⟩
  · by_cases hc : c = 0
    · simp [json_utf8_encode, hc]
    · simp [json_utf8_encode, hc, hspec]
  · rw [h1 0]
    have hne : (encBytes v).length + 1 ≠ 0 := by omega
    simp only [json_utf8_encode, if_neg hne, hspec, Nat.add_sub_cancel, List.take_length]
    rw [takeWhile_append_zero _ (encBytes_ne_zero v)]

/-- The \u%04x rendering is backslash, u, then the four hex digits. -/
theorem sprintfU04x_eq (v : Nat) : sprintfU04x v = 92 :: 117 :: hexQuad v := rfl

/-- scan_utf16 on a non-surrogate four-digit escape yields the value. -/
theorem scan_utf16_bmp (v : Nat) (hv : v < 65536) (hnl : low_surrogate v = false)
    (hnh : high_surrogate v = false) (rest : List Nat) :
    scan_utf16 (hexQuad v ++ rest) = some (v, rest) := by
  rw [scan_utf16, scan_ucs2_hexQuad v hv rest, Option.some_bind, hnl]
  simp [hnh]

/-- A continuation byte passes skip_utf8's continuation test. -/
theorem cont_bits (c : Nat) (hc : contOK c = true) : c &&& 0xc0 = 0x80 := by
  have hb : 0x80 ≤ c ∧ c ≤ 0xbf := by simpa [contOK] using hc
  obtain ⟨h1, h2⟩ := hb
  interval_cases c <;> rfl

/-- Bit tests of a two-byte lead byte. -/
theorem lead2_bits (c : Nat) (h1 : 0xc0 ≤ c) (h2 : c ≤ 0xdf) :
    c &&& 0x80 = 0x80 ∧ c &&& 0x40 = 0x40 ∧ c &&& 0x20 = 0 := by
  interval_cases c <;> exact ⟨rfl, rfl, rfl⟩

/-- Bit tests of a three-byte lead byte. -/
theorem lead3_bits (c : Nat) (h1 : 0xe0 ≤ c) (h2 : c ≤ 0xef) :
    c &&& 0x80 = 0x80 ∧ c &&& 0x40 = 0x40 ∧ c &&& 0x20 = 0x20 ∧ c &&& 0x10 = 0 := by
  interval_cases c <;> exact ⟨rfl, rfl, rfl, rfl⟩

/-- Bit tests of a four-byte lead byte. -/
theorem lead4_bits (c : Nat) (h1 : 0xf0 ≤ c) (h2 : c ≤ 0xf7) :
    c &&& 0x80 = 0x80 ∧ c &&& 0x40 = 0x40 ∧ c &&& 0x20 = 0x20 ∧ c &&& 0x10 = 0x10 ∧
      c &&& 0x08 = 0 := by
  interval_cases c <;> exact ⟨rfl, rfl, rfl, rfl, rfl⟩

/-- skip_utf8 consumes a two-byte sequence. -/
theorem skip_utf8_two (c1 c2 : Nat) (rest : List Nat) (h1 : 0xc0 ≤ c1) (h2 : c1 ≤ 0xdf)
    (hc : contOK c2 = true) : skip_utf8 (c1 :: c2 :: rest) = some rest := by
  have hb := cont_bits c2 hc
  obtain ⟨b1, b2, b3⟩ := lead2_bits c1 h1 h2
  simp [skip_utf8, hb, b1, b2, b3]

/-- skip_utf8 consumes a three-byte sequence. -/
theorem skip_utf8_three (c1 c2 c3 : Nat) (rest : List Nat) (h1 : 0xe0 ≤ c1) (h2 : c1 ≤ 0xef)
    (hc2 : contOK c2 = true) (hc3 : contOK c3 = true) :
    skip_utf8 (c1 :: c2 :: c3 :: rest) = some rest := by
  have hb2 := cont_bits c2 hc2
  have hb3 := cont_bits c3 hc3
  obtain ⟨b1, b2, b3, b4⟩ := lead3_bits c1 h1 h2
  simp [skip_utf8, hb2, hb3, b1, b2, b3, b4]

/-- skip_utf8 consumes a four-byte sequence. -/
theorem skip_utf8_four (c1 c2 c3 c4 : Nat) (rest : List Nat) (h1 : 0xf0 ≤ c1) (h2 : c1 ≤ 0xf7)
    (hc2 : contOK c2 = true) (hc3 : contOK c3 = true) (hc4 : contOK c4 = true) :
    skip_utf8 (c1 :: c2 :: c3 :: c4 :: rest) = some rest := by
  have hb2 := cont_bits c2 hc2
  have hb3 := cont_bits c3 hc3
  have hb4 := cont_bits c4 hc4
  obtain ⟨b1, b2, b3, b4, b5⟩ := lead4_bits c1 h1 h2
  simp [skip_utf8, hb2, hb3, hb4, b1, b2, b3, b4, b5]

/-- One escaping step splits off the first character's escape bytes (any
byte other than NUL and 0xC2, whose pair test needs lookahead). -/
theorem escBody_cons (c : Nat) (t : List Nat) (h0 : c ≠ 0) (hc2 : c ≠ 0xc2) :
    escBody (c :: t) = escBody [c] ++ escBody t := by
  by_cases hctrl : is_ascii_control_character c = true
  · cases t <;> simp [escBody, h0, hctrl]
  · by_cases hq : (c = 92 || c = 34) = true
    · cases t <;> simp [escBody, h0, hctrl, hq, hc2]
    · cases t <;> simp [escBody, h0, hctrl, hq, hc2]

/-- A continuation byte is emitted verbatim by the escaping loop. -/
theorem escBody_single_cont (c : Nat) (hc : contOK c = true) : escBody [c] = [c] := by
  have hb : 0x80 ≤ c ∧ c ≤ 0xbf := by simpa [contOK] using hc
  obtain ⟨h1, h2⟩ := hb
  interval_cases c <;> rfl

/-- escBody on a continuation byte copies it. -/
theorem escBody_cont (c : Nat) (t : List Nat) (hc : contOK c = true) :
    escBody (c :: t) = c :: escBody t := by
  have hb : 0x80 ≤ c ∧ c ≤ 0xbf := by simpa [contOK] using hc
  rw [escBody_cons c t (by omega) (by omega), escBody_single_cont c hc]
  rfl

/-- A non-0xC2 lead byte is emitted verbatim by the escaping loop. -/
theorem escBody_single_hi (c : Nat) (h1 : 0xc0 ≤ c) (h2 : c ≤ 0xf7) (hne : c ≠ 0xc2) :
    escBody [c] = [c] := by
  interval_cases c <;> first | rfl | exact absurd rfl hne

/-- The 0xC2-led pair with a high continuation byte is copied verbatim. -/
theorem escBody_c2_hi (c2 : Nat) (t : List Nat) (h : (c2 &&& 0xe0 == 0x80) = false) :
    escBody (0xc2 :: c2 :: t) = 0xc2 :: escBody (c2 :: t) := by
  have hctrl : is_ascii_control_character 0xc2 = false := rfl
  simp [escBody, h, hctrl]

/-- The 0xC2-led Latin control pair becomes a four-digit escape. -/
theorem escBody_c2_lo (c2 : Nat) (t : List Nat) (h : (c2 &&& 0xe0 == 0x80) = true) :
    escBody (0xc2 :: c2 :: t) =
      sprintfU04x ((0xc2 &&& 0x1f) <<< 6 ||| (c2 &&& 0x3f)) ++ escBody t := by
  have hctrl : is_ascii_control_character 0xc2 = false := rfl
  simp [escBody, h, hctrl]

/-- For a continuation byte in the Latin control range, the code point of
the 0xC2-led pair is numerically the continuation byte itself, and it lies
in 0x80..0x9F. -/
theorem c2lo_val (c2 : Nat) (hlo : 0x80 ≤ c2) (hhi : c2 ≤ 0xbf)
    (h : (c2 &&& 0xe0 == 0x80) = true) :
    (0xc2 &&& 0x1f) <<< 6 ||| (c2 &&& 0x3f) = c2 ∧ c2 ≤ 0x9f := by
  interval_cases c2 <;> revert h <;> decide

/-- The UTF-8 encoding of a Latin control code point. -/
theorem utf8_encode_latin (v : Nat) (hlo : 0x80 ≤ v) (hhi : v ≤ 0x9f) :
    utf8_encode v = [0xc2, v] := by
  interval_cases v <;> rfl

/-- Masking with 0xff is reduction mod 256. -/
theorem and255 (c : Nat) : c &&& 255 = c % 256 := by
  have h := Nat.and_pow_two_sub_one_eq_mod c 8
  norm_num at h
  exact h

/-- One decode-copy step across the escape bytes of any ASCII character:
the original byte is recovered. -/
theorem copy_ascii_seg (c : Nat) (h0 : 0 < c) (hlt : c < 0x80) (f : Nat) (tail : List Nat) :
    copyStringBody (f + 1) (escBody [c] ++ tail) =
      (copyStringBody f tail).map (fun r => (c :: r.1, r.2)) := by
  interval_cases c <;>
    first
    | rfl
    | simp [copyStringBody, escBody, controlEscape, sprintfU04x, hexChar, scan_utf16,
        scan_ucs2, scan_hex_digit, charstr_digit_value, skip, low_surrogate, high_surrogate,
        valid_unicode, utf8_encode, is_ascii_control_character, and255]

/-- One validation step across the escape bytes of any ASCII character:
some byte count is added. -/
theorem scan_ascii_seg (c : Nat) (h0 : 0 < c) (hlt : c < 0x80) (f : Nat) (tail : List Nat) :
    ∃ k, scanStringBody (f + 1) (escBody [c] ++ tail) = (scanStringBody f tail).map (· + k) := by
  interval_cases c <;>
    first
    | exact ⟨_, rfl⟩
    | refine ⟨1, ?_⟩
      simp [scanStringBody, escBody, controlEscape, sprintfU04x, hexChar, scan_utf16,
        scan_ucs2, scan_hex_digit, charstr_digit_value, skip, low_surrogate, high_surrogate,
        valid_unicode, utf8_length, is_ascii_control_character, and255,
        show (117 : Nat) &&& 128 = 0 from rfl]

/-- The copying loop copies any byte other than quote and backslash. -/
theorem copy_plain (c : Nat) (h34 : c ≠ 34) (h92 : c ≠ 92) (f : Nat) (tail : List Nat) :
    copyStringBody (f + 1) (c :: tail) =
      (copyStringBody f tail).map (fun r => (c :: r.1, r.2)) := by
  simp [copyStringBody, h34, h92]

/-- The scanning loop crosses a two-byte UTF-8 sequence. -/
theorem scan_two_seg (c1 c2 : Nat) (h1 : 0xc0 ≤ c1) (h2 : c1 ≤ 0xdf) (hc : contOK c2 = true)
    (f : Nat) (tail : List Nat) :
    ∃ k, scanStringBody (f + 1) (c1 :: c2 :: tail) = (scanStringBody f tail).map (· + k) := by
  refine ⟨(c2 :: tail).length + 1 - tail.length, ?_⟩
  simp only [scanStringBody]
  rw [if_neg (by omega), if_neg (by omega), skip_utf8_two c1 c2 tail h1 h2 hc]

/-- The scanning loop crosses a three-byte UTF-8 sequence. -/
theorem scan_three_seg (c1 c2 c3 : Nat) (h1 : 0xe0 ≤ c1) (h2 : c1 ≤ 0xef)
    (hc2 : contOK c2 = true) (hc3 : contOK c3 = true) (f : Nat) (tail : List Nat) :
    ∃ k, scanStringBody (f + 1) (c1 :: c2 :: c3 :: tail) =
      (scanStringBody f tail).map (· + k) := by
  refine ⟨(c2 :: c3 :: tail).length + 1 - tail.length, ?_⟩
  simp only [scanStringBody]
  rw [if_neg (by omega), if_neg (by omega), skip_utf8_three c1 c2 c3 tail h1 h2 hc2 hc3]

/-- The scanning loop crosses a four-byte UTF-8 sequence. -/
theorem scan_four_seg (c1 c2 c3 c4 : Nat) (h1 : 0xf0 ≤ c1) (h2 : c1 ≤ 0xf7)
    (hc2 : contOK c2 = true) (hc3 : contOK c3 = true) (hc4 : contOK c4 = true)
    (f : Nat) (tail : List Nat) :
    ∃ k, scanStringBody (f + 1) (c1 :: c2 :: c3 :: c4 :: tail) =
      (scanStringBody f tail).map (· + k) := by
  refine ⟨(c2 :: c3 :: c4 :: tail).length + 1 - tail.length, ?_⟩
  simp only [scanStringBody]
  rw [if_neg (by omega), if_neg (by omega), skip_utf8_four c1 c2 c3 c4 tail h1 h2 hc2 hc3 hc4]

/-- The copying loop decodes a non-surrogate four-digit escape to its UTF-8
bytes. -/
theorem copy_u_seg (v : Nat) (hv : v < 65536) (hnl : low_surrogate v = false)
    (hnh : high_surrogate v = false) (f : Nat) (tail : List Nat) :
    copyStringBody (f + 1) (92 :: 117 :: hexQuad v ++ tail) =
      (copyStringBody f tail).map (fun r => (utf8_encode v ++ r.1, r.2)) := by
  have hs := scan_utf16_bmp v hv hnl hnh tail
  simp [copyStringBody, hs]

/-- The scanning loop crosses a non-surrogate four-digit escape. -/
theorem scan_u_seg (v : Nat) (hv : v < 65536) (hnl : low_surrogate v = false)
    (hnh : high_surrogate v = false) (f : Nat) (tail : List Nat) :
    scanStringBody (f + 1) (92 :: 117 :: hexQuad v ++ tail) =
      (scanStringBody f tail).map (· + utf8_length v) := by
  have hs := scan_utf16_bmp v hv hnl hnh tail
  simp [scanStringBody, hs, show (117 : Nat) &&& 128 = 0 from rfl]

/-- escBody emits at least one byte for a nonzero leading byte. -/
theorem escBody_single_ne_nil (c : Nat) (h0 : c ≠ 0) : escBody [c] ≠ [] := by
  by_cases hctrl : is_ascii_control_character c = true
  · simp only [escBody, h0, if_false, hctrl, if_true]
    simp only [controlEscape]
    split <;> simp [sprintfU04x]
  · by_cases hq : (c = 92 || c = 34) = true <;> simp [escBody, h0, hctrl, hq]

/-- The copying loop copies two verbatim bytes. -/
theorem copy_verbatim_two (c1 c2 : Nat) (h1a : c1 ≠ 34) (h1b : c1 ≠ 92) (h2a : c2 ≠ 34)
    (h2b : c2 ≠ 92) (f : Nat) (tail : List Nat) :
    copyStringBody (f + 2) (c1 :: c2 :: tail) =
      (copyStringBody f tail).map (fun r => (c1 :: c2 :: r.1, r.2)) := by
  rw [copy_plain c1 h1a h1b (f + 1) _, copy_plain c2 h2a h2b f tail]
  cases copyStringBody f tail <;> rfl

/-- The whole escaped body of a valid UTF-8 string copies back to the
original bytes, leaving the input after the closing quote. -/
theorem copy_escBody {s : List Nat} (h : Utf8Chars s) : ∀ (f : Nat) (rest : List Nat),
    (escBody s).length + rest.length + 2 ≤ f →
    copyStringBody f (escBody s ++ 34 :: rest) = some (s, rest) := by
  induction h with
  | nil =>
    intro f rest hf
    obtain ⟨f', rfl⟩ : ∃ f', f = f' + 1 := ⟨f - 1, by omega⟩
    simp [copyStringBody, escBody]
  | one h0 hlt ht ih =>
    rename_i c t
    intro f rest hf
    rw [escBody_cons c t (by omega) (by omega)] at hf ⊢
    have hpos : 1 ≤ (escBody [c]).length :=
      List.length_pos.mpr (escBody_single_ne_nil c (by omega))
    simp only [List.length_append] at hf
    obtain ⟨f', rfl⟩ : ∃ f', f = f' + 1 := ⟨f - 1, by omega⟩
    rw [List.append_assoc, copy_ascii_seg c h0 hlt f' (escBody t ++ 34 :: rest)]
    rw [ih f' rest (by omega)]
    rfl
  | two h1 h2 hc2 ht ih =>
    rename_i c1 c2 t
    intro f rest hf
    have hb : 0x80 ≤ c2 ∧ c2 ≤ 0xbf := by simpa [contOK] using hc2
    by_cases hx : c1 = 0xc2
    · subst hx
      cases hlo : (c2 &&& 0xe0 == 0x80) with
      | true =>
        obtain ⟨hval, hle⟩ := c2lo_val c2 hb.1 hb.2 hlo
        rw [escBody_c2_lo c2 t hlo, hval, sprintfU04x_eq] at hf ⊢
        have hnl : low_surrogate c2 = false := by
          simp only [low_surrogate, Bool.and_eq_false_iff, decide_eq_false_iff_not]
          left
          omega
        have hnh : high_surrogate c2 = false := by
          simp only [high_surrogate, Bool.and_eq_false_iff, decide_eq_false_iff_not]
          left
          omega
        simp only [List.length_append, List.length_cons, hexQuad, List.length_nil] at hf
        obtain ⟨f', rfl⟩ : ∃ f', f = f' + 1 := ⟨f - 1, by omega⟩
        have hshape : (92 :: 117 :: hexQuad c2) ++ escBody t ++ 34 :: rest =
            92 :: 117 :: hexQuad c2 ++ (escBody t ++ 34 :: rest) := by
          simp
        rw [hshape, copy_u_seg c2 (by omega) hnl hnh f' _, utf8_encode_latin c2 hb.1 hle]
        rw [ih f' rest (by omega)]
        rfl
      | false =>
        rw [escBody_c2_hi c2 t hlo, escBody_cont c2 t hc2] at hf ⊢
        simp only [List.length_cons] at hf
        obtain ⟨f', rfl⟩ : ∃ f', f = f' + 2 := ⟨f - 2, by omega⟩
        have hshape : (0xc2 :: c2 :: escBody t) ++ 34 :: rest =
            0xc2 :: c2 :: (escBody t ++ 34 :: rest) := by simp
        rw [hshape, copy_verbatim_two 0xc2 c2 (by omega) (by omega) (by omega) (by omega) f' _]
        rw [ih f' rest (by omega)]
        rfl
    · rw [show escBody (c1 :: c2 :: t) = escBody [c1] ++ escBody (c2 :: t) from
        escBody_cons c1 (c2 :: t) (by omega) hx,
        escBody_single_hi c1 (by omega) (by omega) hx, escBody_cont c2 t hc2] at hf ⊢
      simp only [List.length_append, List.length_cons, List.length_nil] at hf
      obtain ⟨f', rfl⟩ : ∃ f', f = f' + 2 := ⟨f - 2, by omega⟩
      have hshape : ([c1] ++ c2 :: escBody t) ++ 34 :: rest =
          c1 :: c2 :: (escBody t ++ 34 :: rest) := by simp
      rw [hshape, copy_verbatim_two c1 c2 (by omega) (by omega) (by omega) (by omega) f' _]
      rw [ih f' rest (by omega)]
      rfl
  | three h1 h2 hc2 hc3 ht ih =>
    rename_i c1 c2 c3 t
    intro f rest hf
    have hb2 : 0x80 ≤ c2 ∧ c2 ≤ 0xbf := by simpa [contOK] using hc2
    have hb3 : 0x80 ≤ c3 ∧ c3 ≤ 0xbf := by simpa [contOK] using hc3
    rw [show escBody (c1 :: c2 :: c3 :: t) = escBody [c1] ++ escBody (c2 :: c3 :: t) from
      escBody_cons c1 (c2 :: c3 :: t) (by omega) (by omega),
      escBody_single_hi c1 (by omega) (by omega) (by omega), escBody_cont c2 (c3 :: t) hc2,
      escBody_cont c3 t hc3] at hf ⊢
    simp only [List.length_append, List.length_cons, List.length_nil] at hf
    obtain ⟨f', rfl⟩ : ∃ f', f = f' + 2 + 1 := ⟨f - 3, by omega⟩
    have hshape : ([c1] ++ c2 :: c3 :: escBody t) ++ 34 :: rest =
        c1 :: c2 :: (c3 :: (escBody t ++ 34 :: rest)) := by simp
    rw [hshape, copy_verbatim_two c1 c2 (by omega) (by omega) (by omega) (by omega) (f' + 1) _]
    rw [copy_plain c3 (by omega) (by omega) f' _]
    rw [ih f' rest (by omega)]
    rfl
  | four h1 h2 hc2 hc3 hc4 ht ih =>
    rename_i c1 c2 c3 c4 t
    intro f rest hf
    have hb2 : 0x80 ≤ c2 ∧ c2 ≤ 0xbf := by simpa [contOK] using hc2
    have hb3 : 0x80 ≤ c3 ∧ c3 ≤ 0xbf := by simpa [contOK] using hc3
    have hb4 : 0x80 ≤ c4 ∧ c4 ≤ 0xbf := by simpa [contOK] using hc4
    rw [show escBody (c1 :: c2 :: c3 :: c4 :: t) =
        escBody [c1] ++ escBody (c2 :: c3 :: c4 :: t) from
      escBody_cons c1 (c2 :: c3 :: c4 :: t) (by omega) (by omega),
      escBody_single_hi c1 (by omega) (by omega) (by omega),
      escBody_cont c2 (c3 :: c4 :: t) hc2, escBody_cont c3 (c4 :: t) hc3,
      escBody_cont c4 t hc4] at hf ⊢
    simp only [List.length_append, List.length_cons, List.length_nil] at hf
    obtain ⟨f', rfl⟩ : ∃ f', f = f' + 2 + 2 := ⟨f - 4, by omega⟩
    have hshape : ([c1] ++ c2 :: c3 :: c4 :: escBody t) ++ 34 :: rest =
        c1 :: c2 :: (c3 :: c4 :: (escBody t ++ 34 :: rest)) := by simp
    rw [hshape,
      copy_verbatim_two c1 c2 (by omega) (by omega) (by omega) (by omega) (f' + 2) _,
      copy_verbatim_two c3 c4 (by omega) (by omega) (by omega) (by omega) f' _]
    rw [ih f' rest (by omega)]
    rfl

/-- The whole escaped body of a valid UTF-8 string passes the validating
scan. -/
theorem scan_escBody {s : List Nat} (h : Utf8Chars s) : ∀ (f : Nat) (rest : List Nat),
    (escBody s).length + rest.length + 2 ≤ f →
    ∃ n, scanStringBody f (escBody s ++ 34 :: rest) = some n := by
  induction h with
  | nil =>
    intro f rest hf
    obtain ⟨f', rfl⟩ : ∃ f', f = f' + 1 := ⟨f - 1, by omega⟩
    exact ⟨0, by simp [scanStringBody, escBody]⟩
  | one h0 hlt ht ih =>
    rename_i c t
    intro f rest hf
    rw [escBody_cons c t (by omega) (by omega)] at hf ⊢
    have hpos : 1 ≤ (escBody [c]).length :=
      List.length_pos.mpr (escBody_single_ne_nil c (by omega))
    simp only [List.length_append] at hf
    obtain ⟨f', rfl⟩ : ∃ f', f = f' + 1 := ⟨f - 1, by omega⟩
    obtain ⟨k, hk⟩ := scan_ascii_seg c h0 hlt f' (escBody t ++ 34 :: rest)
    obtain ⟨n, hn⟩ := ih f' rest (by omega)
    refine ⟨n + k, ?_⟩
    rw [List.append_assoc, hk, hn]
    rfl
  | two h1 h2 hc2 ht ih =>
    rename_i c1 c2 t
    intro f rest hf
    have hb : 0x80 ≤ c2 ∧ c2 ≤ 0xbf := by simpa [contOK] using hc2
    by_cases hx : c1 = 0xc2
    · subst hx
      cases hlo : (c2 &&& 0xe0 == 0x80) with
      | true =>
        obtain ⟨hval, hle⟩ := c2lo_val c2 hb.1 hb.2 hlo
        rw [escBody_c2_lo c2 t hlo, hval, sprintfU04x_eq] at hf ⊢
        have hnl : low_surrogate c2 = false := by
          simp only [low_surrogate, Bool.and_eq_false_iff, decide_eq_false_iff_not]
          left
          omega
        have hnh : high_surrogate c2 = false := by
          simp only [high_surrogate, Bool.and_eq_false_iff, decide_eq_false_iff_not]
          left
          omega
        simp only [List.length_append, List.length_cons, hexQuad, List.length_nil] at hf
        obtain ⟨f', rfl⟩ : ∃ f', f = f' + 1 := ⟨f - 1, by omega⟩
        have hshape : (92 :: 117 :: hexQuad c2) ++ escBody t ++ 34 :: rest =
            92 :: 117 :: hexQuad c2 ++ (escBody t ++ 34 :: rest) := by
          simp
        obtain ⟨n, hn⟩ := ih f' rest (by omega)
        refine ⟨n + utf8_length c2, ?_⟩
        rw [hshape, scan_u_seg c2 (by omega) hnl hnh f' _, hn]
        rfl
      | false =>
        rw [escBody_c2_hi c2 t hlo, escBody_cont c2 t hc2] at hf ⊢
        simp only [List.length_cons] at hf
        obtain ⟨f', rfl⟩ : ∃ f', f = f' + 1 := ⟨f - 1, by omega⟩
        have hshape : (0xc2 :: c2 :: escBody t) ++ 34 :: rest =
            0xc2 :: c2 :: (escBody t ++ 34 :: rest) := by simp
        obtain ⟨k, hk⟩ := scan_two_seg 0xc2 c2 (by omega) (by omega) hc2 f'
          (escBody t ++ 34 :: rest)
        obtain ⟨n, hn⟩ := ih f' rest (by omega)
        refine ⟨n + k, ?_⟩
        rw [hshape, hk, hn]
        rfl
    · rw [show escBody (c1 :: c2 :: t) = escBody [c1] ++ escBody (c2 :: t) from
        escBody_cons c1 (c2 :: t) (by omega) hx,
        escBody_single_hi c1 (by omega) (by omega) hx, escBody_cont c2 t hc2] at hf ⊢
      simp only [List.length_append, List.length_cons, List.length_nil] at hf
      obtain ⟨f', rfl⟩ : ∃ f', f = f' + 1 := ⟨f - 1, by omega⟩
      have hshape : ([c1] ++ c2 :: escBody t) ++ 34 :: rest =
          c1 :: c2 :: (escBody t ++ 34 :: rest) := by simp
      obtain ⟨k, hk⟩ := scan_two_seg c1 c2 (by omega) (by omega) hc2 f'
        (escBody t ++ 34 :: rest)
      obtain ⟨n, hn⟩ := ih f' rest (by omega)
      refine ⟨n + k, ?_⟩
      rw [hshape, hk, hn]
      rfl
  | three h1 h2 hc2 hc3 ht ih =>
    rename_i c1 c2 c3 t
    intro f rest hf
    have hb2 : 0x80 ≤ c2 ∧ c2 ≤ 0xbf := by simpa [contOK] using hc2
    have hb3 : 0x80 ≤ c3 ∧ c3 ≤ 0xbf := by simpa [contOK] using hc3
    rw [show escBody (c1 :: c2 :: c3 :: t) = escBody [c1] ++ escBody (c2 :: c3 :: t) from
      escBody_cons c1 (c2 :: c3 :: t) (by omega) (by omega),
      escBody_single_hi c1 (by omega) (by omega) (by omega), escBody_cont c2 (c3 :: t) hc2,
      escBody_cont c3 t hc3] at hf ⊢
    simp only [List.length_append, List.length_cons, List.length_nil] at hf
    obtain ⟨f', rfl⟩ : ∃ f', f = f' + 1 := ⟨f - 1, by omega⟩
    have hshape : ([c1] ++ c2 :: c3 :: escBody t) ++ 34 :: rest =
        c1 :: c2 :: (c3 :: (escBody t ++ 34 :: rest)) := by simp
    obtain ⟨k, hk⟩ := scan_three_seg c1 c2 c3 (by omega) (by omega) hc2 hc3 f'
      (escBody t ++ 34 :: rest)
    obtain ⟨n, hn⟩ := ih f' rest (by omega)
    refine ⟨n + k, ?_⟩
    rw [hshape, hk, hn]
    rfl
  | four h1 h2 hc2 hc3 hc4 ht ih =>
    rename_i c1 c2 c3 c4 t
    intro f rest hf
    have hb2 : 0x80 ≤ c2 ∧ c2 ≤ 0xbf := by simpa [contOK] using hc2
    have hb3 : 0x80 ≤ c3 ∧ c3 ≤ 0xbf := by simpa [contOK] using hc3
    have hb4 : 0x80 ≤ c4 ∧ c4 ≤ 0xbf := by simpa [contOK] using hc4
    rw [show escBody (c1 :: c2 :: c3 :: c4 :: t) =
        escBody [c1] ++ escBody (c2 :: c3 :: c4 :: t) from
      escBody_cons c1 (c2 :: c3 :: c4 :: t) (by omega) (by omega),
      escBody_single_hi c1 (by omega) (by omega) (by omega),
      escBody_cont c2 (c3 :: c4 :: t) hc2, escBody_cont c3 (c4 :: t) hc3,
      escBody_cont c4 t hc4] at hf ⊢
    simp only [List.length_append, List.length_cons, List.length_nil] at hf
    obtain ⟨f', rfl⟩ : ∃ f', f = f' + 1 := ⟨f - 1, by omega⟩
    have hshape : ([c1] ++ c2 :: c3 :: c4 :: escBody t) ++ 34 :: rest =
        c1 :: c2 :: (c3 :: c4 :: (escBody t ++ 34 :: rest)) := by simp
    obtain ⟨k, hk⟩ := scan_four_seg c1 c2 c3 c4 (by omega) (by omega) hc2 hc3 hc4 f'
      (escBody t ++ 34 :: rest)
    obtain ⟨n, hn⟩ := ih f' rest (by omega)
    refine ⟨n + k, ?_⟩
    rw [hshape, hk, hn]
    rfl

/-- decode_string_value inverts the string encoder on valid UTF-8
contents. -/
theorem decode_string_value_enc {s : List Nat} (h : Utf8Chars s) (rest : List Nat) :
    decode_string_value (encStringBytes s ++ rest) = some (s, rest) := by
  have hshape : encStringBytes s ++ rest = 34 :: (escBody s ++ 34 :: rest) := by
    simp [encStringBytes]
  rw [hshape]
  have hlen : (34 :: (escBody s ++ 34 :: rest)).length =
      (escBody s).length + rest.length + 2 := by
    simp only [List.length_cons, List.length_append]
    omega
  obtain ⟨n, hn⟩ := scan_escBody h ((escBody s).length + rest.length + 2) rest (le_refl _)
  have hcopy := copy_escBody h ((escBody s).length + rest.length + 2) rest (le_refl _)
  have hskip : skip (34 :: (escBody s ++ 34 :: rest)) 34 = some (escBody s ++ 34 :: rest) := by
    simp [skip]
  simp only [decode_string_value, scan_string_repr, hskip, Option.some_bind, hlen, hn, hcopy]

/-- decode_string inverts the string encoder. -/
theorem decode_string_enc {s : List Nat} (h : Utf8Chars s) (rest : List Nat) :
    decode_string (encStringBytes s ++ rest) = some (.string s, rest) := by
  rw [decode_string, decode_string_value_enc h rest]
  rfl

/-- The executable UTF-8 validity test implies the inductive character
grouping. -/
theorem utf8Chars_of_OK : ∀ (n : Nat) (s : List Nat), s.length ≤ n → utf8OK s = true →
    Utf8Chars s
  | 0, s, hl, hok => by
    cases s with
    | nil => exact .nil
    | cons c t => simp at hl
  | n + 1, s, hl, hok => by
    cases s with
    | nil => exact .nil
    | cons c t =>
      rw [utf8OK] at hok
      by_cases h0 : c = 0
      · rw [if_pos h0] at hok
        exact absurd hok (by simp)
      · rw [if_neg h0] at hok
        by_cases hlt : c < 0x80
        · rw [if_pos hlt] at hok
          exact .one (by omega) hlt (utf8Chars_of_OK n t (by simp at hl; omega) hok)
        · rw [if_neg hlt] at hok
          by_cases hmid : c < 0xc0
          · rw [if_pos hmid] at hok
            exact absurd hok (by simp)
          · rw [if_neg hmid] at hok
            by_cases hle : c ≤ 0xdf
            · rw [if_pos hle] at hok
              cases t with
              | nil => simp [utf8OKcont1] at hok
              | cons c2 t2 =>
                rw [utf8OKcont1] at hok
                simp only [Bool.and_eq_true] at hok
                exact .two (by omega) hle hok.1
                  (utf8Chars_of_OK n t2 (by simp at hl; omega) hok.2)
            · rw [if_neg hle] at hok
              by_cases hle3 : c ≤ 0xef
              · rw [if_pos hle3] at hok
                match t, hl, hok with
                | [], hl, hok => exact absurd hok (by simp [utf8OKcont2])
                | [c2], hl, hok => exact absurd hok (by simp [utf8OKcont2])
                | c2 :: c3 :: t3, hl, hok =>
                  rw [utf8OKcont2] at hok
                  simp only [Bool.and_eq_true] at hok
                  exact .three (by omega) hle3 hok.1.1 hok.1.2
                    (utf8Chars_of_OK n t3 (by simp at hl; omega) hok.2)
              · rw [if_neg hle3] at hok
                by_cases hle4 : c ≤ 0xf7
                · rw [if_pos hle4] at hok
                  match t, hl, hok with
                  | [], hl, hok => exact absurd hok (by simp [utf8OKcont3])
                  | [c2], hl, hok => exact absurd hok (by simp [utf8OKcont3])
                  | [c2, c3], hl, hok => exact absurd hok (by simp [utf8OKcont3])
                  | c2 :: c3 :: c4 :: t4, hl, hok =>
                    rw [utf8OKcont3] at hok
                    simp only [Bool.and_eq_true] at hok
                    exact .four (by omega) hle4 hok.1.1.1 hok.1.1.2 hok.1.2
                      (utf8Chars_of_OK n t4 (by simp at hl; omega) hok.2)
                · rw [if_neg hle4] at hok
                  exact absurd hok (by simp)

/-- The decode dispatch sends a quote-headed input to decode_string. -/
theorem decodeVal_string (f : Nat) (t : List Nat) (levels : Nat) (hlev : levels ≠ 0) :
    decodeVal (f + 1) (34 :: t) levels = decode_string (34 :: t) := by
  have hws : skip_ws (34 :: t) = 34 :: t := skip_ws_cons 34 t (by omega)
  simp only [decodeVal, hlev, if_false, hws]
  rw [if_neg (by omega), if_neg (by omega)]
  simp

/-- The decode dispatch sends a minus-headed input to
decode_negative_number. -/
theorem decodeVal_neg (f : Nat) (t : List Nat) (levels : Nat) (hlev : levels ≠ 0) :
    decodeVal (f + 1) (45 :: t) levels = decode_negative_number (45 :: t) := by
  have hws : skip_ws (45 :: t) = 45 :: t := skip_ws_cons 45 t (by omega)
  simp only [decodeVal, hlev, if_false, hws]
  rw [if_neg (by omega), if_neg (by omega), if_neg (by omega)]
  simp

/-- The decode dispatch sends a t-headed input to decode_true. -/
theorem decodeVal_true (f : Nat) (t : List Nat) (levels : Nat) (hlev : levels ≠ 0) :
    decodeVal (f + 1) (116 :: t) levels = decode_true (116 :: t) := by
  have hws : skip_ws (116 :: t) = 116 :: t := skip_ws_cons 116 t (by omega)
  simp only [decodeVal, hlev, if_false, hws]
  rw [if_neg (by omega), if_neg (by omega), if_neg (by omega), if_neg (by omega)]
  simp

/-- The decode dispatch sends an f-headed input to decode_false. -/
theorem decodeVal_false (f : Nat) (t : List Nat) (levels : Nat) (hlev : levels ≠ 0) :
    decodeVal (f + 1) (102 :: t) levels = decode_false (102 :: t) := by
  have hws : skip_ws (102 :: t) = 102 :: t := skip_ws_cons 102 t (by omega)
  simp only [decodeVal, hlev, if_false, hws]
  rw [if_neg (by omega), if_neg (by omega), if_neg (by omega), if_neg (by omega),
    if_neg (by omega)]
  simp

/-- The decode dispatch sends an n-headed input to decode_null. -/
theorem decodeVal_null (f : Nat) (t : List Nat) (levels : Nat) (hlev : levels ≠ 0) :
    decodeVal (f + 1) (110 :: t) levels = decode_null (110 :: t) := by
  have hws : skip_ws (110 :: t) = 110 :: t := skip_ws_cons 110 t (by omega)
  simp only [decodeVal, hlev, if_false, hws]
  rw [if_neg (by omega), if_neg (by omega), if_neg (by omega), if_neg (by omega),
    if_neg (by omega), if_neg (by omega)]
  simp

/-- decode_true consumes exactly the four literal bytes. -/
theorem decode_true_enc (rest : List Nat) :
    decode_true (116 :: 114 :: 117 :: 101 :: rest) = some (.boolean true, rest) := by
  simp [decode_true, skip]

/-- decode_false consumes exactly the five literal bytes. -/
theorem decode_false_enc (rest : List Nat) :
    decode_false (102 :: 97 :: 108 :: 115 :: 101 :: rest) = some (.boolean false, rest) := by
  simp [decode_false, skip]

/-- decode_null consumes exactly the four literal bytes. -/
theorem decode_null_enc (rest : List Nat) :
    decode_null (110 :: 117 :: 108 :: 108 :: rest) = some (.null, rest) := by
  simp [decode_null, skip]

/-- decode_number on the %llu rendering of a 64-bit value followed by a
separator: the number is classified by the signed-64 boundary. -/
theorem decode_number_natDecimal (m : Nat) (rest : List Nat) (hm : m < 2 ^ 64)
    (hsep : SepOrEnd rest) :
    decode_number (natDecimal m ++ rest) =
      some ((if m < 2 ^ 63 then .integer (m : Int) else .unsignedInt m), rest) := by
  have h1 := decode_number_sep (natDecimal m) rest (natDecimal_digits m) (natDecimal_ne_nil m)
    hsep
  have h2 := decode_unsigned_eq (natDecimal m) (fun c hc => by
    have := natDecimal_digits m c hc
    simp [isDigitB] at this
    omega) (by rw [parse_natDecimal]; exact hm)
  rw [h1, h2, parse_natDecimal]
  rfl

/-- Naive concatenation of element sequences. -/
def JsonSeq.cat : JsonSeq → JsonSeq → JsonSeq
  | .nil, b => b
  | .cons x t, b => .cons x (JsonSeq.cat t b)

/-- Concatenation with nil on the right. -/
theorem seq_cat_nil : ∀ (a : JsonSeq), JsonSeq.cat a .nil = a
  | .nil => rfl
  | .cons x t => by rw [JsonSeq.cat, seq_cat_nil t]

/-- snoc then cat is cat of the cons. -/
theorem seq_cat_snoc : ∀ (a : JsonSeq) (y : JsonThing) (b : JsonSeq),
    JsonSeq.cat (a.snoc y) b = JsonSeq.cat a (.cons y b)
  | .nil, y, b => rfl
  | .cons x t, y, b => by
    rw [JsonSeq.snoc, JsonSeq.cat, seq_cat_snoc t y b]
    rfl

/-- Naive concatenation of field sequences. -/
def JsonFields.cat : JsonFields → JsonFields → JsonFields
  | .nil, b => b
  | .cons k v t, b => .cons k v (JsonFields.cat t b)

/-- Concatenation with nil on the right. -/
theorem fields_cat_nil : ∀ (a : JsonFields), JsonFields.cat a .nil = a
  | .nil => rfl
  | .cons k v t => by rw [JsonFields.cat, fields_cat_nil t]

/-- snoc then cat is cat of the cons. -/
theorem fields_cat_snoc : ∀ (a : JsonFields) (k : List Nat) (y : JsonThing)
    (b : JsonFields), JsonFields.cat (a.snoc k y) b = JsonFields.cat a (.cons k y b)
  | .nil, k, y, b => rfl
  | .cons k2 v2 t, k, y, b => by
    rw [JsonFields.snoc, JsonFields.cat, fields_cat_snoc t k y b]
    rfl

/-- The bytes of an array body after its first element: separators and
encoded elements. -/
def seqTail : JsonSeq → List Nat
  | .nil => []
  | .cons y t => 44 :: (encBytes y ++ seqTail t)

/-- encArrayBody in first-element/tail form. -/
theorem encArrayBody_cons : ∀ (x : JsonThing) (xt : JsonSeq),
    encArrayBody (.cons x xt) = encBytes x ++ seqTail xt
  | x, .nil => by simp [encArrayBody, seqTail]
  | x, .cons y t => by
    rw [show encArrayBody (.cons x (.cons y t)) =
        encBytes x ++ 44 :: encArrayBody (.cons y t) from rfl,
      encArrayBody_cons y t]
    simp [seqTail]

/-- The bytes of an object body after its first field: separator, then
key, colon, value of each later field. -/
def fieldsTail : JsonFields → List Nat
  | .nil => []
  | .cons k v t => 44 :: (encStringBytes k ++ 58 :: (encBytes v ++ fieldsTail t))

/-- The bytes of an object body: key, colon, value for each field with
separators (the whole body, starting at the first key). -/
theorem encObjectBody_cons : ∀ (k : List Nat) (v : JsonThing) (t : JsonFields),
    encObjectBody (.cons k v t) =
      encStringBytes k ++ 58 :: encBytes v ++ fieldsTail t
  | k, v, .nil => by simp [encObjectBody, fieldsTail]
  | k, v, .cons k2 v2 t2 => by
    rw [show encObjectBody (.cons k v (.cons k2 v2 t2)) =
        encStringBytes k ++ 58 :: encBytes v ++ 44 :: encObjectBody (.cons k2 v2 t2) from rfl,
      encObjectBody_cons k2 v2 t2]
    simp [fieldsTail]

/-- The first byte of a compact encoding is never whitespace nor a
closing bracket or comma (for well-formed values without Float/Raw). -/
theorem encBytes_head (v : JsonThing) (hwf : wfThing v = true) (hnf : noFloatRaw v = true) :
    ∃ c t', encBytes v = c :: t' ∧ ¬(c = 32 ∨ c = 9 ∨ c = 13 ∨ c = 10) ∧ c ≠ 93 ∧ c ≠ 44 ∧
      c ≠ 125 := by
  cases v with
  | array es => exact ⟨91, _, rfl, by omega, by omega, by omega, by omega⟩
  | object fs => exact ⟨123, _, rfl, by omega, by omega, by omega, by omega⟩
  | string s => exact ⟨34, _, rfl, by omega, by omega, by omega, by omega⟩
  | integer n =>
    by_cases hn : n < 0
    · refine ⟨45, natDecimal (-n).toNat, ?_, by omega, by omega, by omega, by omega⟩
      simp [encBytes, intDecimal, hn]
    · cases hnd : natDecimal n.toNat with
      | nil => exact absurd hnd (natDecimal_ne_nil _)
      | cons c t' =>
        have hdig : isDigitB c = true := natDecimal_digits _ c (by rw [hnd]; simp)
        have hb : 48 ≤ c ∧ c ≤ 57 := by simpa [isDigitB] using hdig
        refine ⟨c, t', ?_, by omega, by omega, by omega, by omega⟩
        simp [encBytes, intDecimal, hn, hnd]
  | unsignedInt u =>
    cases hnd : natDecimal u with
    | nil => exact absurd hnd (natDecimal_ne_nil _)
    | cons c t' =>
      have hdig : isDigitB c = true := natDecimal_digits _ c (by rw [hnd]; simp)
      have hb : 48 ≤ c ∧ c ≤ 57 := by simpa [isDigitB] using hdig
      refine ⟨c, t', ?_, by omega, by omega, by omega, by omega⟩
      simp [encBytes, hnd]
  | float d => simp [noFloatRaw] at hnf
  | boolean b =>
    cases b
    · exact ⟨102, _, rfl, by omega, by omega, by omega, by omega⟩
    · exact ⟨116, _, rfl, by omega, by omega, by omega, by omega⟩
  | null => exact ⟨110, _, rfl, by omega, by omega, by omega, by omega⟩
  | raw r => simp [noFloatRaw] at hnf

/-- decodeVal on the encoding of a well-formed Integer: the value comes
back, reclassified only at the signed minimum. -/
theorem decodeVal_enc_integer (n : Int) (f levels : Nat) (rest : List Nat)
    (hwf : wfThing (.integer n) = true) (hlev : levels ≠ 0) (hsep : SepOrEnd rest) :
    decodeVal (f + 1) (encBytes (.integer n) ++ rest) levels =
      some (reclassify (.integer n), rest) := by
  simp only [wfThing, Bool.and_eq_true, decide_eq_true_eq] at hwf
  by_cases hn : n < 0
  · have henc : encBytes (.integer n) = 45 :: natDecimal (-n).toNat := by
      simp [encBytes, intDecimal, hn]
    have hm64 : (-n).toNat < 2 ^ 64 := by omega
    rw [henc, List.cons_append, decodeVal_neg f _ levels hlev]
    rw [decode_negative_number]
    rw [show skip (45 :: (natDecimal (-n).toNat ++ rest)) 45 =
      some (natDecimal (-n).toNat ++ rest) from by simp [skip]]
    rw [Option.some_bind, decode_number_natDecimal (-n).toNat rest hm64 hsep,
      Option.some_bind]
    by_cases hm63 : (-n).toNat < 2 ^ 63
    · rw [if_pos hm63]
      have hne : ¬ (((-n).toNat : Int) = -(2 ^ 63 : Int)) := by omega
      have h1 : -(((-n).toNat : Int)) = n := by omega
      have h2 : ¬ (n = -(2 ^ 63 : Int)) := by omega
      simp only [reclassify, hne, h2, if_false]
      rw [h1]
    · rw [if_neg hm63]
      have hmeq : (-n).toNat = 2 ^ 63 := by omega
      have hneq : n = -(2 ^ 63 : Int) := by omega
      have hcast : -(((-n).toNat : Nat) : ℚ) = ((n : Int) : ℚ) := by
        rw [hmeq, hneq]
        push_cast
        ring
      simp [reclassify, hneq, hm63, hcast]
  · have henc : encBytes (.integer n) = natDecimal n.toNat := by
      simp [encBytes, intDecimal, hn]
    have hm63 : n.toNat < 2 ^ 63 := by omega
    rw [henc]
    cases hnd : natDecimal n.toNat with
    | nil => exact absurd hnd (natDecimal_ne_nil _)
    | cons c t' =>
      have hdig : isDigitB c = true := natDecimal_digits _ c (by rw [hnd]; simp)
      rw [List.cons_append, decodeVal_number f c (t' ++ rest) levels hdig hlev,
        ← List.cons_append, ← hnd,
        decode_number_natDecimal n.toNat rest (by omega) hsep, if_pos hm63]
      have h1 : ((n.toNat : Nat) : Int) = n := by omega
      have h2 : ¬ (n = -(2 ^ 63 : Int)) := by omega
      simp only [reclassify, h1, if_neg h2]

/-- decodeVal on the encoding of a well-formed Unsigned: the value comes
back, reclassified to Integer below the signed boundary. -/
theorem decodeVal_enc_unsigned (u : Nat) (f levels : Nat) (rest : List Nat)
    (hwf : wfThing (.unsignedInt u) = true) (hlev : levels ≠ 0) (hsep : SepOrEnd rest) :
    decodeVal (f + 1) (encBytes (.unsignedInt u) ++ rest) levels =
      some (reclassify (.unsignedInt u), rest) := by
  simp only [wfThing, decide_eq_true_eq] at hwf
  have henc : encBytes (.unsignedInt u) = natDecimal u := rfl
  rw [henc]
  cases hnd : natDecimal u with
  | nil => exact absurd hnd (natDecimal_ne_nil _)
  | cons c t' =>
    have hdig : isDigitB c = true := natDecimal_digits _ c (by rw [hnd]; simp)
    rw [List.cons_append, decodeVal_number f c (t' ++ rest) levels hdig hlev,
      ← List.cons_append, ← hnd, decode_number_natDecimal u rest hwf hsep]
    rfl

/-- The remainder after an array element starts with a separator. -/
theorem sepOrEnd_seqTail (yt : JsonSeq) (rest : List Nat) :
    SepOrEnd (seqTail yt ++ 93 :: rest) := by
  cases yt with
  | nil => simp [seqTail, SepOrEnd]
  | cons y t => simp [seqTail, SepOrEnd]

/-- The remainder after an object value starts with a separator. -/
theorem sepOrEnd_fieldsTail (t : JsonFields) (rest : List Nat) :
    SepOrEnd (fieldsTail t ++ 125 :: rest) := by
  cases t with
  | nil => simp [fieldsTail, SepOrEnd]
  | cons k v t2 => simp [fieldsTail, SepOrEnd]

mutual

theorem decodeVal_enc : ∀ (v : JsonThing) (f levels : Nat) (rest : List Nat),
    wfThing v = true → noFloatRaw v = true → nestingNeed v ≤ levels → SepOrEnd rest →
    (encBytes v ++ rest).length + 1 ≤ f →
    decodeVal f (encBytes v ++ rest) levels = some (reclassify v, rest)
  | v, f, levels, rest, hwf, hnf, hneed, hsep, hfu => by
    cases v with
    | array es =>
      simp only [nestingNeed] at hneed
      have hlev : levels ≠ 0 := by omega
      have hsh : encBytes (.array es) ++ rest = 91 :: (encArrayBody es ++ 93 :: rest) := by
        simp [encBytes]
      rw [hsh] at hfu ⊢
      simp only [List.length_cons, List.length_append] at hfu
      obtain ⟨f', rfl⟩ : ∃ f', f = f' + 1 := ⟨f - 1, by omega⟩
      have hws : skip_ws (91 :: (encArrayBody es ++ 93 :: rest)) = _ :=
        skip_ws_cons 91 _ (by omega)
      simp only [decodeVal, hlev, if_false, hws]
      rw [if_pos (by trivial)]
      cases es with
      | nil =>
        have ht : encArrayBody JsonSeq.nil ++ 93 :: rest = 93 :: rest := by
          simp [encArrayBody]
        rw [ht, skip_ws_cons 93 rest (by omega)]
        rfl
      | cons x xt =>
        simp only [wfThing, wfSeq, Bool.and_eq_true] at hwf
        simp only [noFloatRaw, noFloatRawSeq, Bool.and_eq_true] at hnf
        simp only [seqNeed] at hneed
        obtain ⟨c0, t0, he0, hnws0, h93, h44, h125⟩ := encBytes_head x hwf.1 hnf.1
        have ht : encArrayBody (JsonSeq.cons x xt) ++ 93 :: rest =
            c0 :: (t0 ++ (seqTail xt ++ 93 :: rest)) := by
          rw [encArrayBody_cons, he0]
          simp
        have hws0 : skip_ws (c0 :: (t0 ++ (seqTail xt ++ 93 :: rest))) =
            c0 :: (t0 ++ (seqTail xt ++ 93 :: rest)) := skip_ws_cons c0 _ hnws0
        have hlen : (encArrayBody (JsonSeq.cons x xt)).length =
            (encBytes x).length + (seqTail xt).length := by
          rw [encArrayBody_cons]
          simp
        have hfu2 : (encBytes x ++ (seqTail xt ++ 93 :: rest)).length + 1 ≤ f' := by
          simp only [List.length_append, List.length_cons]
          omega
        have hv := decodeVal_enc x f' (levels - 1) (seqTail xt ++ 93 :: rest) hwf.1 hnf.1
          (by omega) (sepOrEnd_seqTail xt rest) hfu2
        rw [he0, List.cons_append] at hv
        have hfu3 : (seqTail xt ++ 93 :: rest).length + 1 ≤ f' := by
          simp only [List.length_append, List.length_cons]
          omega
        have hl := decodeArrayLoop_enc xt (JsonSeq.cons (reclassify x) JsonSeq.nil) f' levels
          rest hwf.2 hnf.2 (by omega) hsep hfu3
        simp only [ht, hws0, h93, if_false, hv, hl]
        rfl
    | object fs =>
      simp only [nestingNeed] at hneed
      have hlev : levels ≠ 0 := by omega
      have hsh : encBytes (.object fs) ++ rest = 123 :: (encObjectBody fs ++ 125 :: rest) := by
        simp [encBytes]
      rw [hsh] at hfu ⊢
      simp only [List.length_cons, List.length_append] at hfu
      obtain ⟨f', rfl⟩ : ∃ f', f = f' + 1 := ⟨f - 1, by omega⟩
      have hws : skip_ws (123 :: (encObjectBody fs ++ 125 :: rest)) = _ :=
        skip_ws_cons 123 _ (by omega)
      simp only [decodeVal, hlev, if_false, hws]
      rw [if_pos trivial]
      cases fs with
      | nil =>
        have ht : encObjectBody JsonFields.nil ++ 125 :: rest = 125 :: rest := by
          simp [encObjectBody]
        rw [ht, skip_ws_cons 125 rest (by omega)]
        rfl
      | cons k v t2 =>
        have ht : encObjectBody (JsonFields.cons k v t2) ++ 125 :: rest =
            34 :: ((escBody k ++ [34]) ++
              (58 :: (encBytes v ++ (fieldsTail t2 ++ 125 :: rest)))) := by
          rw [encObjectBody_cons]
          simp [encStringBytes]
        have hws34 : skip_ws (34 :: ((escBody k ++ [34]) ++
            (58 :: (encBytes v ++ (fieldsTail t2 ++ 125 :: rest))))) =
            34 :: ((escBody k ++ [34]) ++
              (58 :: (encBytes v ++ (fieldsTail t2 ++ 125 :: rest)))) :=
          skip_ws_cons 34 _ (by omega)
        have h34 : (34 : Nat) ≠ 125 := by omega
        have hol := decodeObjectLoop_enc (JsonFields.cons k v t2) JsonFields.nil f' levels
          rest hwf hnf (by omega) hsep
          (by simp only [List.length_append, List.length_cons] at hfu ⊢; omega)
          (by simp)
        rw [ht] at hol
        simp only [ht, hws34, h34, if_false, hol]
        rfl
    | string s =>
      simp only [nestingNeed] at hneed
      have hlev : levels ≠ 0 := by omega
      simp only [wfThing] at hwf
      have hchars : Utf8Chars s := utf8Chars_of_OK s.length s (le_refl _) hwf
      have hsh : encBytes (.string s) ++ rest = 34 :: (escBody s ++ [34] ++ rest) := by
        simp [encBytes, encStringBytes]
      rw [hsh] at hfu ⊢
      obtain ⟨f', rfl⟩ : ∃ f', f = f' + 1 := ⟨f - 1, by simp at hfu; omega⟩
      rw [decodeVal_string f' _ levels hlev, ← hsh]
      rw [show encBytes (.string s) = encStringBytes s from rfl, decode_string_enc hchars rest]
      rfl
    | integer n =>
      simp only [nestingNeed] at hneed
      have hlev : levels ≠ 0 := by omega
      obtain ⟨f', rfl⟩ : ∃ f', f = f' + 1 := ⟨f - 1, by omega⟩
      exact decodeVal_enc_integer n f' levels rest hwf hlev hsep
    | unsignedInt u =>
      simp only [nestingNeed] at hneed
      have hlev : levels ≠ 0 := by omega
      obtain ⟨f', rfl⟩ : ∃ f', f = f' + 1 := ⟨f - 1, by omega⟩
      exact decodeVal_enc_unsigned u f' levels rest hwf hlev hsep
    | float d =>
      simp [noFloatRaw] at hnf
    | boolean b =>
      simp only [nestingNeed] at hneed
      have hlev : levels ≠ 0 := by omega
      obtain ⟨f', rfl⟩ : ∃ f', f = f' + 1 := ⟨f - 1, by omega⟩
      cases b
      · rw [show encBytes (.boolean false) ++ rest = 102 :: 97 :: 108 :: 115 :: 101 :: rest
          from rfl]
        rw [decodeVal_false f' _ levels hlev, decode_false_enc rest]
        rfl
      · rw [show encBytes (.boolean true) ++ rest = 116 :: 114 :: 117 :: 101 :: rest from rfl]
        rw [decodeVal_true f' _ levels hlev, decode_true_enc rest]
        rfl
    | null =>
      simp only [nestingNeed] at hneed
      have hlev : levels ≠ 0 := by omega
      obtain ⟨f', rfl⟩ : ∃ f', f = f' + 1 := ⟨f - 1, by omega⟩
      rw [show encBytes .null ++ rest = 110 :: 117 :: 108 :: 108 :: rest from rfl]
      rw [decodeVal_null f' _ levels hlev, decode_null_enc rest]
      rfl
    | raw r =>
      simp [noFloatRaw] at hnf

/-- The array element loop accumulates the remaining reclassified
elements. -/
theorem decodeArrayLoop_enc : ∀ (ts : JsonSeq) (acc : JsonSeq) (f levels : Nat)
    (rest : List Nat), wfSeq ts = true → noFloatRawSeq ts = true →
    seqNeed ts + 1 ≤ levels → SepOrEnd rest →
    (seqTail ts ++ 93 :: rest).length + 1 ≤ f →
    decodeArrayLoop f acc (seqTail ts ++ 93 :: rest) levels =
      some (.array (JsonSeq.cat acc (reclassifySeq ts)), rest)
  | ts, acc, f, levels, rest, hwf, hnf, hneed, hsep, hfu => by
    cases ts with
    | nil =>
      obtain ⟨f', rfl⟩ : ∃ f', f = f' + 1 := ⟨f - 1, by omega⟩
      have ht : seqTail JsonSeq.nil ++ 93 :: rest = 93 :: rest := by simp [seqTail]
      rw [ht, show reclassifySeq JsonSeq.nil = JsonSeq.nil from rfl, seq_cat_nil]
      rfl
    | cons y yt =>
      simp only [wfSeq, Bool.and_eq_true] at hwf
      simp only [noFloatRawSeq, Bool.and_eq_true] at hnf
      simp only [seqNeed] at hneed
      obtain ⟨c0, t0, he0, hnws0, h93, h44, h125⟩ := encBytes_head y hwf.1 hnf.1
      have ht : seqTail (JsonSeq.cons y yt) ++ 93 :: rest =
          44 :: (c0 :: (t0 ++ (seqTail yt ++ 93 :: rest))) := by
        rw [seqTail, he0]
        simp
      rw [ht] at hfu ⊢
      simp only [List.length_cons, List.length_append] at hfu
      obtain ⟨f', rfl⟩ : ∃ f', f = f' + 1 := ⟨f - 1, by omega⟩
      have hws44 : skip_ws (44 :: (c0 :: (t0 ++ (seqTail yt ++ 93 :: rest)))) =
          44 :: (c0 :: (t0 ++ (seqTail yt ++ 93 :: rest))) := skip_ws_cons 44 _ (by omega)
      have h4493 : (44 : Nat) ≠ 93 := by omega
      have hws0 : skip_ws (c0 :: (t0 ++ (seqTail yt ++ 93 :: rest))) =
          c0 :: (t0 ++ (seqTail yt ++ 93 :: rest)) := skip_ws_cons c0 _ hnws0
      have hlen0 : (encBytes y).length = t0.length + 1 := by rw [he0]; simp
      have hv := decodeVal_enc y f' (levels - 1) (seqTail yt ++ 93 :: rest) hwf.1 hnf.1
        (by omega) (sepOrEnd_seqTail yt rest)
        (by simp only [List.length_append, List.length_cons, hlen0]; omega)
      rw [he0, List.cons_append] at hv
      have hl := decodeArrayLoop_enc yt (acc.snoc (reclassify y)) f' levels rest hwf.2 hnf.2
        (by omega) hsep
        (by simp only [List.length_append, List.length_cons]; omega)
      simp only [decodeArrayLoop, hws44, h4493, if_false]
      rw [if_pos trivial]
      simp only [hws0, hv, hl]
      rw [seq_cat_snoc]
      rfl

/-- The object field loop accumulates the remaining reclassified fields. -/
theorem decodeObjectLoop_enc : ∀ (fs : JsonFields) (acc : JsonFields) (f levels : Nat)
    (rest : List Nat), wfFields fs = true → noFloatRawFields fs = true →
    fieldsNeed fs + 1 ≤ levels → SepOrEnd rest →
    (encObjectBody fs ++ 125 :: rest).length + 1 ≤ f → fs ≠ .nil →
    decodeObjectLoop f acc (encObjectBody fs ++ 125 :: rest) levels =
      some (.object (JsonFields.cat acc (reclassifyFields fs)), rest)
  | fs, acc, f, levels, rest, hwf, hnf, hneed, hsep, hfu, hne => by
    cases fs with
    | nil => exact absurd rfl hne
    | cons k v t2 =>
      simp only [wfFields, Bool.and_eq_true] at hwf
      simp only [noFloatRawFields, Bool.and_eq_true] at hnf
      simp only [fieldsNeed] at hneed
      have hchars : Utf8Chars k := utf8Chars_of_OK k.length k (le_refl _) hwf.1.1.1
      obtain ⟨c0, t0, he0, hnws0, h93, h44, h125⟩ := encBytes_head v hwf.1.2 hnf.1
      have ht : encObjectBody (JsonFields.cons k v t2) ++ 125 :: rest =
          encStringBytes k ++ (58 :: (encBytes v ++ (fieldsTail t2 ++ 125 :: rest))) := by
        rw [encObjectBody_cons]
        simp
      rw [ht] at hfu ⊢
      simp only [List.length_append, List.length_cons, encStringBytes, List.length_nil] at hfu
      obtain ⟨f', rfl⟩ : ∃ f', f = f' + 1 := ⟨f - 1, by omega⟩
      have hdsv := decode_string_value_enc hchars
        (58 :: (encBytes v ++ (fieldsTail t2 ++ 125 :: rest)))
      have hws58 : skip_ws (58 :: (encBytes v ++ (fieldsTail t2 ++ 125 :: rest))) =
          58 :: (encBytes v ++ (fieldsTail t2 ++ 125 :: rest)) :=
        skip_ws_cons 58 _ (by omega)
      have hskip : skip (58 :: (encBytes v ++ (fieldsTail t2 ++ 125 :: rest))) 58 =
          some (encBytes v ++ (fieldsTail t2 ++ 125 :: rest)) := by simp [skip]
      have hwsv : skip_ws (encBytes v ++ (fieldsTail t2 ++ 125 :: rest)) =
          encBytes v ++ (fieldsTail t2 ++ 125 :: rest) := by
        rw [he0, List.cons_append]
        exact skip_ws_cons c0 _ hnws0
      have hlen0 : (encBytes v).length = t0.length + 1 := by rw [he0]; simp
      have hv := decodeVal_enc v f' (levels - 1) (fieldsTail t2 ++ 125 :: rest) hwf.1.2 hnf.1
        (by omega) (sepOrEnd_fieldsTail t2 rest)
        (by simp only [List.length_append, List.length_cons, hlen0]; omega)
      cases t2 with
      | nil =>
        have htl : fieldsTail JsonFields.nil ++ 125 :: rest = 125 :: rest := by
          simp [fieldsTail]
        rw [htl] at hdsv hws58 hskip hwsv hv ⊢
        have hws125 : skip_ws (125 :: rest) = 125 :: rest := skip_ws_cons 125 rest (by omega)
        simp only [decodeObjectLoop, hdsv, hws58, hskip, Option.map_some', hwsv, hv,
          hws125]
        rw [if_pos trivial]
        rw [show reclassifyFields (JsonFields.cons k v JsonFields.nil) =
          JsonFields.cons k (reclassify v) JsonFields.nil from rfl,
          ← fields_cat_snoc, fields_cat_nil]
      | cons k2 v2 t3 =>
        have htl : fieldsTail (JsonFields.cons k2 v2 t3) ++ 125 :: rest =
            44 :: (34 :: ((escBody k2 ++ [34]) ++
              (58 :: (encBytes v2 ++ (fieldsTail t3 ++ 125 :: rest))))) := by
          simp [fieldsTail, encStringBytes]
        rw [htl] at hdsv hws58 hskip hwsv hv ⊢
        have hws44 : skip_ws (44 :: (34 :: ((escBody k2 ++ [34]) ++
            (58 :: (encBytes v2 ++ (fieldsTail t3 ++ 125 :: rest)))))) =
            44 :: (34 :: ((escBody k2 ++ [34]) ++
              (58 :: (encBytes v2 ++ (fieldsTail t3 ++ 125 :: rest))))) :=
          skip_ws_cons 44 _ (by omega)
        have h44125 : (44 : Nat) ≠ 125 := by omega
        have hws34b : skip_ws (34 :: ((escBody k2 ++ [34]) ++
            (58 :: (encBytes v2 ++ (fieldsTail t3 ++ 125 :: rest))))) =
            34 :: ((escBody k2 ++ [34]) ++
              (58 :: (encBytes v2 ++ (fieldsTail t3 ++ 125 :: rest)))) :=
          skip_ws_cons 34 _ (by omega)
        have hlen2 : (fieldsTail (JsonFields.cons k2 v2 t3)).length =
            (encObjectBody (JsonFields.cons k2 v2 t3)).length + 1 := by
          rw [encObjectBody_cons, fieldsTail]
          simp [encStringBytes]
        have hrec := decodeObjectLoop_enc (JsonFields.cons k2 v2 t3)
          (acc.snoc k (reclassify v)) f' levels rest
          hwf.2 hnf.2
          (by omega) hsep
          (by
            simp only [List.length_append, List.length_cons]
            omega)
          (by simp)
        have hback : (34 : Nat) :: ((escBody k2 ++ [34]) ++
            (58 :: (encBytes v2 ++ (fieldsTail t3 ++ 125 :: rest)))) =
            encObjectBody (JsonFields.cons k2 v2 t3) ++ 125 :: rest := by
          rw [encObjectBody_cons]
          simp [encStringBytes]
        rw [← hback] at hrec
        simp only [decodeObjectLoop, hdsv, hws58, hskip, Option.map_some', hwsv, hv,
          hws44, h44125, if_false]
        rw [if_pos trivial]
        simp only [hws34b, hrec]
        rw [show reclassifyFields (JsonFields.cons k v (JsonFields.cons k2 v2 t3)) =
          JsonFields.cons k (reclassify v)
            (reclassifyFields (JsonFields.cons k2 v2 t3)) from rfl,
          ← fields_cat_snoc]

end

/-- json_utf8_decode inverts the compact encoder on well-formed
Float/Raw-free values within the nesting budget. -/
theorem json_utf8_decode_enc (v : JsonThing) (hwf : wfThing v = true)
    (hnf : noFloatRaw v = true) (hneed : nestingNeed v ≤ MAX_DECODE_NESTING_LEVELS) :
    json_utf8_decode (encBytes v) = some (reclassify v) := by
  have h := decodeVal_enc v ((encBytes v).length + 1) MAX_DECODE_NESTING_LEVELS [] hwf hnf
    hneed trivial (by simp)
  rw [List.append_nil] at h
  simp only [json_utf8_decode, h]
  simp [skip_ws]

/-- strcmp equality is reflexive. -/
theorem cstrEq_refl (s : List Nat) : cstrEq s s = true := by simp [cstrEq]

/-- Reclassification keeps the element count. -/
theorem reclassifySeq_length : ∀ (es : JsonSeq),
    JsonSeq.length (reclassifySeq es) = JsonSeq.length es
  | .nil => rfl
  | .cons x t => by
    rw [show reclassifySeq (JsonSeq.cons x t) =
      JsonSeq.cons (reclassify x) (reclassifySeq t) from rfl]
    simp only [JsonSeq.length, reclassifySeq_length t]

/-- Reclassification keeps the field count. -/
theorem reclassifyFields_length : ∀ (fs : JsonFields),
    JsonFields.length (reclassifyFields fs) = JsonFields.length fs
  | .nil => rfl
  | .cons k v t => by
    rw [show reclassifyFields (JsonFields.cons k v t) =
      JsonFields.cons k (reclassify v) (reclassifyFields t) from rfl]
    simp only [JsonFields.length, reclassifyFields_length t]

/-- A key fresh in the remaining fields is absent from their reclassified
overlay. -/
theorem hashLookup_fresh : ∀ (fs : JsonFields) (k : List Nat), keyFresh k fs = true →
    hashLookup (reclassifyFields fs) k = none
  | .nil, k, _ => rfl
  | .cons k2 v2 t, k, h => by
    simp only [keyFresh, Bool.and_eq_true, Bool.not_eq_true'] at h
    rw [show reclassifyFields (JsonFields.cons k2 v2 t) =
      JsonFields.cons k2 (reclassify v2) (reclassifyFields t) from rfl]
    simp only [hashLookup, hashLookup_fresh t k h.2, h.1]
    rfl

/-- Lookups survive extending the overlay with a further field. -/
theorem hashLookup_mono (fb : JsonFields) (k2 : List Nat) (v2 : JsonThing) (key : List Nat)
    (x : JsonThing) (h : hashLookup fb key = some x) :
    hashLookup (.cons k2 v2 fb) key = some x := by
  simp [hashLookup, h]

/-- Every field of fa finds its reclassified value in fb's overlay. -/
def FieldsLookup : JsonFields → JsonFields → Prop
  | .nil, _ => True
  | .cons k v t, fb => hashLookup fb k = some (reclassify v) ∧ FieldsLookup t fb

/-- FieldsLookup survives extending the overlay. -/
theorem FieldsLookup_mono : ∀ (t : JsonFields) (fb : JsonFields) (k2 : List Nat)
    (v2 : JsonThing), FieldsLookup t fb → FieldsLookup t (.cons k2 v2 fb)
  | .nil, _, _, _, _ => trivial
  | .cons k v t, fb, k2, v2, h =>
    ⟨hashLookup_mono fb k2 v2 k (reclassify v) h.1, FieldsLookup_mono t fb k2 v2 h.2⟩

/-- With distinct keys, every field of fs is found in its own reclassified
overlay. -/
theorem fieldsLookup_self : ∀ (fs : JsonFields), wfFields fs = true →
    FieldsLookup fs (reclassifyFields fs)
  | .nil, _ => trivial
  | .cons k v t, h => by
    simp only [wfFields, Bool.and_eq_true] at h
    refine ⟨?_, ?_⟩
    · rw [show reclassifyFields (JsonFields.cons k v t) =
        JsonFields.cons k (reclassify v) (reclassifyFields t) from rfl]
      simp only [hashLookup, hashLookup_fresh t k h.1.1.2, cstrEq_refl]
      rfl
    · rw [show reclassifyFields (JsonFields.cons k v t) =
        JsonFields.cons k (reclassify v) (reclassifyFields t) from rfl]
      exact FieldsLookup_mono t (reclassifyFields t) k (reclassify v)
        (fieldsLookup_self t h.2)

/-- Every value has positive equality weight. -/
theorem weight_pos : ∀ (v : JsonThing), 1 ≤ weight v := by
  intro v
  cases v <;> simp only [weight] <;> omega

mutual

/-- Reclassification keeps the equality-fuel weight. -/
theorem reclassify_weight : ∀ (v : JsonThing), weight (reclassify v) = weight v
  | .array es => by
    rw [show reclassify (JsonThing.array es) = JsonThing.array (reclassifySeq es) from rfl]
    simp only [weight, reclassifySeq_weight es]
  | .object fs => by
    rw [show reclassify (JsonThing.object fs) =
      JsonThing.object (reclassifyFields fs) from rfl]
    simp only [weight, reclassifyFields_weight fs]
  | .string s => rfl
  | .integer n => by
    simp only [reclassify]
    split <;> rfl
  | .unsignedInt u => by
    simp only [reclassify]
    split <;> rfl
  | .float d => rfl
  | .boolean b => rfl
  | .null => rfl
  | .raw r => rfl

/-- reclassify_weight over array elements. -/
theorem reclassifySeq_weight : ∀ (es : JsonSeq), seqWeight (reclassifySeq es) = seqWeight es
  | .nil => rfl
  | .cons x t => by
    rw [show reclassifySeq (JsonSeq.cons x t) =
      JsonSeq.cons (reclassify x) (reclassifySeq t) from rfl]
    simp only [seqWeight, reclassify_weight x, reclassifySeq_weight t]

/-- reclassify_weight over object fields. -/
theorem reclassifyFields_weight : ∀ (fs : JsonFields),
    fieldsWeight (reclassifyFields fs) = fieldsWeight fs
  | .nil => rfl
  | .cons k v t => by
    rw [show reclassifyFields (JsonFields.cons k v t) =
      JsonFields.cons k (reclassify v) (reclassifyFields t) from rfl]
    simp only [fieldsWeight, reclassify_weight v, reclassifyFields_weight t]

end

mutual

/-- A well-formed Float/Raw-free value is equal (tolerance 0) to its
reclassified image: the numeric kind changes are invisible to
json_thing_equal's cross-kind comparisons. -/
theorem equalAux_reclassify : ∀ (v : JsonThing) (f : Nat), wfThing v = true →
    noFloatRaw v = true → 2 * weight v ≤ f → equalAux f v (reclassify v) 0 = some true
  | v, f, hwf, hnf, hfu => by
    cases v with
    | array es =>
      simp only [weight] at hfu
      obtain ⟨f', rfl⟩ : ∃ f', f = f' + 1 := ⟨f - 1, by omega⟩
      rw [show reclassify (JsonThing.array es) = JsonThing.array (reclassifySeq es) from rfl]
      simp only [equalAux]
      rw [reclassifySeq_length]
      rw [if_neg (show ¬(JsonSeq.length es ≠ JsonSeq.length es) from fun h => h rfl)]
      exact equalSeqAux_reclassify es f' (by simpa [wfThing] using hwf)
        (by simpa [noFloatRaw] using hnf) (by omega)
    | object fs =>
      simp only [weight] at hfu
      obtain ⟨f', rfl⟩ : ∃ f', f = f' + 1 := ⟨f - 1, by omega⟩
      rw [show reclassify (JsonThing.object fs) =
        JsonThing.object (reclassifyFields fs) from rfl]
      simp only [equalAux]
      rw [reclassifyFields_length]
      rw [if_neg (show ¬(JsonFields.length fs ≠ JsonFields.length fs) from fun h => h rfl)]
      exact equalFieldsAux_sub fs (reclassifyFields fs) f' (by simpa [wfThing] using hwf)
        (by simpa [noFloatRaw] using hnf)
        (fieldsLookup_self fs (by simpa [wfThing] using hwf)) (by omega)
    | string s =>
      obtain ⟨f', rfl⟩ : ∃ f', f = f' + 1 := ⟨f - 1, by have := weight_pos (.string s); omega⟩
      rw [show reclassify (JsonThing.string s) = JsonThing.string s from rfl]
      simp only [equalAux, cstrEq_refl]
    | integer n =>
      obtain ⟨f', rfl⟩ : ∃ f', f = f' + 1 := ⟨f - 1, by have := weight_pos (.integer n); omega⟩
      by_cases hmin : n = -(2 ^ 63 : Int)
      · rw [show reclassify (JsonThing.integer n) =
          (if n = -(2 ^ 63 : Int) then JsonThing.float (DoubleM.fin (n : ℚ))
           else JsonThing.integer n) from rfl, if_pos hmin]
        simp only [equalAux, equal_to_integer, equal_doubles]
        simp
      · rw [show reclassify (JsonThing.integer n) =
          (if n = -(2 ^ 63 : Int) then JsonThing.float (DoubleM.fin (n : ℚ))
           else JsonThing.integer n) from rfl, if_neg hmin]
        simp only [equalAux, equal_to_integer]
        simp
    | unsignedInt u =>
      obtain ⟨f', rfl⟩ : ∃ f', f = f' + 1 :=
        ⟨f - 1, by have := weight_pos (.unsignedInt u); omega⟩
      by_cases hlt : u < 2 ^ 63
      · rw [show reclassify (JsonThing.unsignedInt u) =
          (if u < 2 ^ 63 then JsonThing.integer (u : Int)
           else JsonThing.unsignedInt u) from rfl, if_pos hlt]
        simp only [equalAux, equal_to_unsigned]
        simp
      · rw [show reclassify (JsonThing.unsignedInt u) =
          (if u < 2 ^ 63 then JsonThing.integer (u : Int)
           else JsonThing.unsignedInt u) from rfl, if_neg hlt]
        simp only [equalAux, equal_to_unsigned]
        simp
    | float d => simp [noFloatRaw] at hnf
    | boolean b =>
      obtain ⟨f', rfl⟩ : ∃ f', f = f' + 1 :=
        ⟨f - 1, by have := weight_pos (.boolean b); omega⟩
      rw [show reclassify (JsonThing.boolean b) = JsonThing.boolean b from rfl]
      simp only [equalAux]
      simp
    | null =>
      obtain ⟨f', rfl⟩ : ∃ f', f = f' + 1 := ⟨f - 1, by have := weight_pos .null; omega⟩
      rfl
    | raw r => simp [noFloatRaw] at hnf

/-- Pairwise equality of a sequence with its reclassified image. -/
theorem equalSeqAux_reclassify : ∀ (es : JsonSeq) (f : Nat), wfSeq es = true →
    noFloatRawSeq es = true → 2 * seqWeight es + 1 ≤ f →
    equalSeqAux f es (reclassifySeq es) 0 = some true
  | es, f, hwf, hnf, hfu => by
    cases es with
    | nil =>
      obtain ⟨f', rfl⟩ : ∃ f', f = f' + 1 := ⟨f - 1, by omega⟩
      rfl
    | cons x xt =>
      simp only [wfSeq, Bool.and_eq_true] at hwf
      simp only [noFloatRawSeq, Bool.and_eq_true] at hnf
      simp only [seqWeight] at hfu
      obtain ⟨f', rfl⟩ : ∃ f', f = f' + 1 := ⟨f - 1, by omega⟩
      rw [show reclassifySeq (JsonSeq.cons x xt) =
        JsonSeq.cons (reclassify x) (reclassifySeq xt) from rfl]
      have hx := equalAux_reclassify x f' hwf.1 hnf.1 (by omega)
      have hxt := equalSeqAux_reclassify xt f' hwf.2 hnf.2
        (by have := weight_pos x; omega)
      simp only [equalSeqAux, hx, hxt]
  
/-- Every field of a well-formed sequence is found and equal in an overlay
that FieldsLookup-covers it. -/
theorem equalFieldsAux_sub : ∀ (fa : JsonFields) (fb : JsonFields) (f : Nat),
    wfFields fa = true → noFloatRawFields fa = true → FieldsLookup fa fb →
    2 * fieldsWeight fa + 1 ≤ f → equalFieldsAux f fa fb 0 = some true
  | fa, fb, f, hwf, hnf, hlk, hfu => by
    cases fa with
    | nil =>
      obtain ⟨f', rfl⟩ : ∃ f', f = f' + 1 := ⟨f - 1, by omega⟩
      rfl
    | cons k v t =>
      simp only [wfFields, Bool.and_eq_true] at hwf
      simp only [noFloatRawFields, Bool.and_eq_true] at hnf
      simp only [fieldsWeight] at hfu
      obtain ⟨hk, hlkt⟩ := hlk
      obtain ⟨f', rfl⟩ : ∃ f', f = f' + 1 := ⟨f - 1, by omega⟩
      have hv := equalAux_reclassify v f' hwf.1.2 hnf.1 (by omega)
      have ht := equalFieldsAux_sub t fb f' hwf.2 hnf.2 hlkt
        (by have := weight_pos v; omega)
      simp only [equalFieldsAux, hk, hv, ht]

end

/-- json_thing_equal accepts a value against its reclassified image at
tolerance 0. -/
theorem json_thing_equal_reclassify (v : JsonThing) (hwf : wfThing v = true)
    (hnf : noFloatRaw v = true) :
    json_thing_equal v (reclassify v) 0 = some true := by
  rw [json_thing_equal]
  exact equalAux_reclassify v (weight v + weight (reclassify v)) hwf hnf
    (by rw [reclassify_weight]; omega)

/-- The k+1 times nested empty array: [[...[]...]]. -/
def nestArray : Nat → JsonThing
  | 0 => .array .nil
  | k + 1 => .array (.cons (nestArray k) .nil)

/-- Nested arrays are well-formed. -/
theorem nestArray_wf : ∀ (k : Nat), wfThing (nestArray k) = true
  | 0 => rfl
  | k + 1 => by
    rw [nestArray]
    simp only [wfThing, wfSeq, Bool.and_eq_true]
    exact ⟨nestArray_wf k, trivial⟩

/-- Nested arrays hold no Float and no Raw. -/
theorem nestArray_noFloatRaw : ∀ (k : Nat), noFloatRaw (nestArray k) = true
  | 0 => rfl
  | k + 1 => by
    rw [nestArray]
    simp only [noFloatRaw, noFloatRawSeq, Bool.and_eq_true]
    exact ⟨nestArray_noFloatRaw k, trivial⟩

/-- The nesting budget a k+1-deep array needs is exactly k+1. -/
theorem nestArray_need : ∀ (k : Nat), nestingNeed (nestArray k) = k + 1
  | 0 => rfl
  | k + 1 => by
    rw [nestArray]
    simp only [nestingNeed, seqNeed, nestArray_need k]
    omega

/-- Nested arrays reclassify to themselves. -/
theorem nestArray_reclassify : ∀ (k : Nat), reclassify (nestArray k) = nestArray k
  | 0 => rfl
  | k + 1 => by
    rw [nestArray]
    rw [show reclassify (JsonThing.array (JsonSeq.cons (nestArray k) JsonSeq.nil)) =
      JsonThing.array (JsonSeq.cons (reclassify (nestArray k)) JsonSeq.nil) from rfl]
    rw [nestArray_reclassify k]

/-- The encoding of the k+1-deep nested array is k+1 opening then k+1
closing brackets. -/
theorem nestArray_encBytes : ∀ (k : Nat),
    encBytes (nestArray k) = List.replicate (k + 1) 91 ++ List.replicate (k + 1) 93
  | 0 => rfl
  | k + 1 => by
    rw [nestArray]
    rw [show encBytes (JsonThing.array (JsonSeq.cons (nestArray k) JsonSeq.nil)) =
      91 :: encBytes (nestArray k) ++ [93] from by simp [encBytes, encArrayBody]]
    rw [nestArray_encBytes k]
    rw [show List.replicate (k + 1 + 1) 91 = 91 :: List.replicate (k + 1) 91 from rfl]
    have h93 : List.replicate (k + 1 + 1) 93 = List.replicate (k + 1) 93 ++ [93] := by
      rw [List.replicate_succ']
    rw [h93]
    simp

/-- More opening brackets than the remaining nesting budget always fail,
whatever follows. -/
theorem deep_brackets_fail : ∀ (f k levels : Nat) (s : List Nat), levels < k →
    decodeVal f (List.replicate k 91 ++ s) levels = none
  | 0, k, levels, s, h => rfl
  | f + 1, k, levels, s, h => by
    by_cases h0 : levels = 0
    · simp [decodeVal, h0]
    · obtain ⟨k2, rfl⟩ : ∃ k2, k = k2 + 2 := ⟨k - 2, by omega⟩
      have hsh : List.replicate (k2 + 2) 91 ++ s =
          91 :: (91 :: (List.replicate k2 91 ++ s)) := by
        rw [show List.replicate (k2 + 2) 91 = 91 :: 91 :: List.replicate k2 91 from rfl]
        simp
      rw [hsh]
      have hws : skip_ws (91 :: (91 :: (List.replicate k2 91 ++ s))) =
          91 :: (91 :: (List.replicate k2 91 ++ s)) := skip_ws_cons 91 _ (by omega)
      have hws2 : skip_ws (91 :: (List.replicate k2 91 ++ s)) =
          91 :: (List.replicate k2 91 ++ s) := skip_ws_cons 91 _ (by omega)
      have h9193 : (91 : Nat) ≠ 93 := by omega
      have hih : decodeVal f (91 :: (List.replicate k2 91 ++ s)) (levels - 1) = none := by
        have h := deep_brackets_fail f (k2 + 1) (levels - 1) s (by omega)
        rw [show List.replicate (k2 + 1) 91 ++ s =
          91 :: (List.replicate k2 91 ++ s) from by simp [List.replicate_succ]] at h
        exact h
      simp only [decodeVal, h0, if_false, hws, hws2, h9193, hih]
      rw [if_pos trivial]

/-- 201 opening brackets exceed the 200-level budget whatever follows. -/
theorem json_utf8_decode_deep (s : List Nat) :
    json_utf8_decode (List.replicate 201 91 ++ s) = none := by
  have h := deep_brackets_fail ((List.replicate 201 91 ++ s).length + 1) 201
    MAX_DECODE_NESTING_LEVELS s (by simp [MAX_DECODE_NESTING_LEVELS])
  simp only [json_utf8_decode, h]

/-- C5 counterexample: the 201-deep nested array is well-formed and
contains no Float and no Raw, yet decoding its own compact encoding fails
on the nesting limit, so the round trip does not hold unconditionally for
Float/Raw-free values. -/
theorem roundtrip_fails_at_depth_201 :
    wfThing (nestArray 200) = true ∧ noFloatRaw (nestArray 200) = true ∧
    json_utf8_decode (encBytes (nestArray 200)) = none := by
  refine ⟨nestArray_wf 200, nestArray_noFloatRaw 200, ?_⟩
  rw [nestArray_encBytes 200]
  exact json_utf8_decode_deep (List.replicate (200 + 1) 93)

/-- C5 amended: for well-formed values without Float and Raw whose
container nesting stays within the 200-level decoder budget, decoding the
compact encoding succeeds and the result is equal to the original under
json_thing_equal with tolerance 0. -/
theorem roundtrip_equal_amended (v : JsonThing) (hwf : wfThing v = true)
    (hnf : noFloatRaw v = true) (hneed : nestingNeed v ≤ MAX_DECODE_NESTING_LEVELS) :
    ∃ w, json_utf8_decode (encBytes v) = some w ∧ json_thing_equal v w 0 = some true :=
  ⟨reclassify v, json_utf8_decode_enc v hwf hnf hneed, json_thing_equal_reclassify v hwf hnf⟩

/-- C5 witness: the concrete object with key a and value [5] round-trips
to an equal value. -/
theorem roundtrip_equal_amended_witness :
    wfThing (JsonThing.object (JsonFields.cons [97]
        (JsonThing.array (JsonSeq.cons (JsonThing.integer 5) JsonSeq.nil))
        JsonFields.nil)) = true ∧
    noFloatRaw (JsonThing.object (JsonFields.cons [97]
        (JsonThing.array (JsonSeq.cons (JsonThing.integer 5) JsonSeq.nil))
        JsonFields.nil)) = true ∧
    nestingNeed (JsonThing.object (JsonFields.cons [97]
        (JsonThing.array (JsonSeq.cons (JsonThing.integer 5) JsonSeq.nil))
        JsonFields.nil)) ≤ MAX_DECODE_NESTING_LEVELS ∧
    ∃ w, json_utf8_decode (encBytes (JsonThing.object (JsonFields.cons [97]
        (JsonThing.array (JsonSeq.cons (JsonThing.integer 5) JsonSeq.nil))
        JsonFields.nil))) = some w ∧
      json_thing_equal (JsonThing.object (JsonFields.cons [97]
        (JsonThing.array (JsonSeq.cons (JsonThing.integer 5) JsonSeq.nil))
        JsonFields.nil)) w 0 = some true :=
  ⟨by decide, by decide, by decide,
    roundtrip_equal_amended _ (by decide) (by decide) (by decide)⟩

/-- C7: decoding enforces the 200-level container nesting limit: any
well-formed Float/Raw-free value whose nesting need is within the budget
decodes from its encoding (in particular the 200-deep bracket nest
succeeds), and any input beginning with 201 opening brackets fails. -/
theorem nesting_limit_200 :
    (∀ v : JsonThing, wfThing v = true → noFloatRaw v = true →
        nestingNeed v ≤ MAX_DECODE_NESTING_LEVELS →
        json_utf8_decode (encBytes v) = some (reclassify v)) ∧
    json_utf8_decode (List.replicate 200 91 ++ List.replicate 200 93) =
      some (nestArray 199) ∧
    (∀ s : List Nat, json_utf8_decode (List.replicate 201 91 ++ s) = none) := by
  refine ⟨json_utf8_decode_enc, ?_, json_utf8_decode_deep⟩
  have h := json_utf8_decode_enc (nestArray 199) (nestArray_wf 199)
    (nestArray_noFloatRaw 199)
    (by rw [nestArray_need]; simp [MAX_DECODE_NESTING_LEVELS])
  rw [nestArray_encBytes 199, nestArray_reclassify 199] at h
  exact h

/-- C7 witness: a depth-2 array decodes back, and 201 bare opening
brackets fail. -/
theorem nesting_limit_200_witness :
    json_utf8_decode (encBytes (JsonThing.array (JsonSeq.cons JsonThing.null JsonSeq.nil))) =
      some (reclassify (JsonThing.array (JsonSeq.cons JsonThing.null JsonSeq.nil))) ∧
    json_utf8_decode (List.replicate 201 91 ++ []) = none :=
  ⟨nesting_limit_200.1 _ (by decide) (by decide) (by decide), nesting_limit_200.2.2 []⟩
